import Mathlib

set_option maxRecDepth 200000

/-!
Verification of the jm-parser dependency-resolution core

This file gives a shallow embedding of the dependency-resolution and
list-reconciliation core of the `jm_parser` package (`plugin.py`,
`parsing.py`) and proves properties of it.

Modelling conventions:

* Python strings are Lean `String`s; `str.lower()` maps `Char.toLower` over the characters
  (identical on the ASCII names the program handles).
* `distutils.version.LooseVersion` is embedded faithfully: the version
  string is tokenised into maximal runs of digits (converted to numbers),
  maximal runs of lowercase letters, and maximal runs of other characters,
  with `.` acting as a dropped separator; comparison is Python list
  comparison, where comparing a number with a string raises `TypeError`
  (modelled as `PyErr.typeError`).  `LooseVersion('')` never parses its
  argument, so any comparison touching it raises `AttributeError`
  (modelled as `PyErr.attrError`).
* `JenkinsPlugin.__hash__` (md5 of the exact-case utf-8 name bytes,
  read as a 128-bit integer) is implemented bit-for-bit, so dict
  membership, which compares hashes before `__eq__`, is modelled as
  "some key has the same md5 value and is case-insensitively equal".
* Python `dict` preserves insertion order, so the update-center catalog
  `available_plugins` is an association list `List (JenkinsPlugin × List
  JenkinsPlugin)`.
* Fallible code returns `Except PyErr`; the unbounded recursion of
  `depsolve` is given a fuel parameter, `none` meaning "did not finish
  within the given fuel".  Termination of the Python program corresponds
  to `∃ fuel, result = some r`; divergence to `∀ fuel, result = none`.
-/

/-- The `JenkinsPlugin` from `plugin.py`: a (name, version) pair of strings. -/
structure JenkinsPlugin where
  name : String
  version : String
deriving DecidableEq, Repr

/-- Python `str.lower()` (ASCII-faithful). -/
def lowerName (s : String) : String := ⟨s.data.map Char.toLower⟩

/-- The `JenkinsPlugin.__eq__`: equality on lower-cased names only. -/
def jpEqB (p q : JenkinsPlugin) : Bool := lowerName p.name == lowerName q.name

/-- Error outcomes of the embedded Python code. -/
inductive PyErr where
  | notFound (name : String)
  | typeError
  | attrError
deriving DecidableEq, Repr

/-! ## LooseVersion -/

/-- One parsed component of a `LooseVersion`: a number (a run of digits)
or a string (a run of lowercase letters, or of other characters). -/
inductive VComp where
  | num (n : Nat)
  | str (cs : List Char)
deriving DecidableEq, Repr

/-- Character classes of `distutils.version.LooseVersion.component_re`:
digits, lowercase letters, the dot separator, and everything else. -/
inductive CKind where
  | dig
  | low
  | oth
deriving DecidableEq

def charKind (c : Char) : Option CKind :=
  if c = '.' then none
  else if c.isDigit then some .dig
  else if 'a' ≤ c ∧ c ≤ 'z' then some .low
  else some .oth

def digitsVal (cs : List Char) : Nat :=
  cs.foldl (fun acc c => acc * 10 + (c.toNat - 48)) 0

def finishRun (k : CKind) (run : List Char) : VComp :=
  match k with
  | .dig => .num (digitsVal run.reverse)
  | _ => .str run.reverse

/-- Tokeniser state machine for `LooseVersion.parse`: splits a string into
maximal same-kind runs, dropping `.` separators and converting digit runs
to numbers. -/
def looseTokensGo : List Char → Option (CKind × List Char) → List VComp
  | [], none => []
  | [], some (k, run) => [finishRun k run]
  | c :: rest, st =>
    match charKind c, st with
    | none, none => looseTokensGo rest none
    | none, some (k, run) => finishRun k run :: looseTokensGo rest none
    | some k, none => looseTokensGo rest (some (k, [c]))
    | some k, some (k', run) =>
      if k = k' then looseTokensGo rest (some (k', c :: run))
      else finishRun k' run :: looseTokensGo rest (some (k, [c]))

/-- The `LooseVersion(v).version`: the list of parsed components. -/
def looseTokens (v : String) : List VComp := looseTokensGo v.data none

/-- Python string (and char-list) lexicographic strict order, by code point. -/
def lexLt : List Char → List Char → Bool
  | [], [] => false
  | [], _ :: _ => true
  | _ :: _, [] => false
  | a :: as, b :: bs => if a < b then true else if b < a then false else lexLt as bs

/-- Python list comparison on parsed version components: element-wise, a
shorter list that is a proper initial segment being smaller; comparing a
number with a string raises `TypeError`, modelled as `none`. -/
def pyCompare : List VComp → List VComp → Option Ordering
  | [], [] => some .eq
  | [], _ :: _ => some .lt
  | _ :: _, [] => some .gt
  | a :: as, b :: bs =>
    match a, b with
    | .num m, .num n =>
      if m < n then some .lt else if n < m then some .gt else pyCompare as bs
    | .str s, .str t =>
      if lexLt s t then some .lt else if lexLt t s then some .gt else pyCompare as bs
    | _, _ => none

/-- Comparison of two version strings, as performed by the rich-comparison
methods of `JenkinsPlugin` via `LooseVersion`.  An empty version string
was never parsed by `LooseVersion.__init__`, so touching it raises
`AttributeError`. -/
def verCmp (v w : String) : Except PyErr Ordering :=
  if v = "" || w = "" then .error .attrError
  else
    match pyCompare (looseTokens v) (looseTokens w) with
    | none => .error .typeError
    | some o => .ok o

/-- The `JenkinsPlugin.__gt__`. -/
def jpGt (p q : JenkinsPlugin) : Except PyErr Bool :=
  (verCmp p.version q.version).map (fun o => o == .gt)

/-- The `JenkinsPlugin.__lt__`. -/
def jpLt (p q : JenkinsPlugin) : Except PyErr Bool :=
  (verCmp p.version q.version).map (fun o => o == .lt)

/-! ## md5 and `JenkinsPlugin.__hash__` -/

/-- UTF-8 encoding of one code point (Python `str.encode()`). -/
def utf8Bytes (c : Nat) : List Nat :=
  if c < 0x80 then [c]
  else if c < 0x800 then [0xC0 + c / 0x40, 0x80 + c % 0x40]
  else if c < 0x10000 then
    [0xE0 + c / 0x1000, 0x80 + c / 0x40 % 0x40, 0x80 + c % 0x40]
  else
    [0xF0 + c / 0x40000, 0x80 + c / 0x1000 % 0x40, 0x80 + c / 0x40 % 0x40, 0x80 + c % 0x40]

/-- The utf-8 bytes of a string (Python `str.encode()`). -/
def strBytes (s : String) : List Nat :=
  (s.data.map (fun c => utf8Bytes c.toNat)).flatten

def md5K : List Nat :=
  [3614090360, 3905402710, 606105819, 3250441966, 4118548399, 1200080426,
   2821735955, 4249261313, 1770035416, 2336552879, 4294925233, 2304563134,
   1804603682, 4254626195, 2792965006, 1236535329, 4129170786, 3225465664,
   643717713, 3921069994, 3593408605, 38016083, 3634488961, 3889429448,
   568446438, 3275163606, 4107603335, 1163531501, 2850285829, 4243563512,
   1735328473, 2368359562, 4294588738, 2272392833, 1839030562, 4259657740,
   2763975236, 1272893353, 4139469664, 3200236656, 681279174, 3936430074,
   3572445317, 76029189, 3654602809, 3873151461, 530742520, 3299628645,
   4096336452, 1126891415, 2878612391, 4237533241, 1700485571, 2399980690,
   4293915773, 2240044497, 1873313359, 4264355552, 2734768916, 1309151649,
   4149444226, 3174756917, 718787259, 3951481745]

def md5S : List Nat :=
  [7, 12, 17, 22, 7, 12, 17, 22, 7, 12, 17, 22, 7, 12, 17, 22,
   5, 9, 14, 20, 5, 9, 14, 20, 5, 9, 14, 20, 5, 9, 14, 20,
   4, 11, 16, 23, 4, 11, 16, 23, 4, 11, 16, 23, 4, 11, 16, 23,
   6, 10, 15, 21, 6, 10, 15, 21, 6, 10, 15, 21, 6, 10, 15, 21]

def w32 : Nat := 4294967296

/-- Left rotation of a 32-bit value (a number below `2^32`) by `n` bits. -/
def rotl32 (x n : Nat) : Nat := (x % 2 ^ (32 - n)) * 2 ^ n + x / 2 ^ (32 - n)

def nand32 (x : Nat) : Nat := Nat.xor x 4294967295

/-- md5 padding: append `0x80`, zero-fill to 56 mod 64, then the
little-endian 64-bit bit length. -/
def md5Pad (msg : List Nat) : List Nat :=
  let lenBits := msg.length * 8
  let padLen := (119 - msg.length % 64) % 64 + 1
  msg ++ (0x80 :: List.replicate (padLen - 1) 0) ++
    (List.range 8).map (fun i => lenBits / 2 ^ (8 * i) % 256)

/-- Read 4 bytes little-endian. -/
def le32 (bs : List Nat) : Nat :=
  match bs with
  | b0 :: b1 :: b2 :: b3 :: _ => b0 + b1 * 256 + b2 * 65536 + b3 * 16777216
  | _ => 0

def md5ChunksGo : Nat → List Nat → List (List Nat)
  | 0, _ => []
  | _, [] => []
  | n + 1, b :: bs => (b :: bs).take 64 :: md5ChunksGo n ((b :: bs).drop 64)

def md5Chunks (bs : List Nat) : List (List Nat) := md5ChunksGo bs.length bs

def md5F (i b c d : Nat) : Nat :=
  if i < 16 then Nat.lor (Nat.land b c) (Nat.land (nand32 b) d)
  else if i < 32 then Nat.lor (Nat.land d b) (Nat.land (nand32 d) c)
  else if i < 48 then Nat.xor b (Nat.xor c d)
  else Nat.xor c (Nat.lor b (nand32 d))

def md5G (i : Nat) : Nat :=
  if i < 16 then i
  else if i < 32 then (5 * i + 1) % 16
  else if i < 48 then (3 * i + 5) % 16
  else (7 * i) % 16

/-- One md5 compression round. -/
def md5Round (m : List Nat) (st : Nat × Nat × Nat × Nat) (i : Nat) : Nat × Nat × Nat × Nat :=
  match st with
  | (a, b, c, d) =>
    let f := (md5F i b c d + a + md5K.getD i 0 + m.getD (md5G i) 0) % w32
    (d, (b + rotl32 f (md5S.getD i 0)) % w32, b, c)

/-- md5 compression of one 64-byte chunk. -/
def md5Compress (st : Nat × Nat × Nat × Nat) (chunk : List Nat) : Nat × Nat × Nat × Nat :=
  let m := (List.range 16).map (fun i => le32 (chunk.drop (4 * i)))
  match (List.range 64).foldl (md5Round m) st with
  | (a, b, c, d) =>
    ((st.1 + a) % w32, (st.2.1 + b) % w32, (st.2.2.1 + c) % w32, (st.2.2.2 + d) % w32)

def word2bytes (x : Nat) : List Nat :=
  [x % 256, x / 256 % 256, x / 65536 % 256, x / 16777216 % 256]

/-- The integer value of `hashlib.md5(msg).hexdigest()` read in base 16:
the 16 digest bytes (a, b, c, d little-endian each) as a big-endian
number. -/
def md5Int (msg : List Nat) : Nat :=
  match (md5Chunks (md5Pad msg)).foldl md5Compress
      (1732584193, 4023233417, 2562383102, 271733878) with
  | (a, b, c, d) =>
    (word2bytes a ++ word2bytes b ++ word2bytes c ++ word2bytes d).foldl
      (fun acc by' => acc * 256 + by') 0

/-- The `JenkinsPlugin.__hash__`: md5 of the exact-case utf-8 name bytes. -/
def jpHash (p : JenkinsPlugin) : Nat := md5Int (strBytes p.name)

instance {ε α : Type} [DecidableEq ε] [DecidableEq α] : DecidableEq (Except ε α) := fun x y =>
  match x, y with
  | .ok a, .ok b => if h : a = b then .isTrue (by rw [h]) else .isFalse (by simp [h])
  | .error a, .error b => if h : a = b then .isTrue (by rw [h]) else .isFalse (by simp [h])
  | .ok _, .error _ => .isFalse (by simp)
  | .error _, .ok _ => .isFalse (by simp)

/-! ## The catalog and `parsing.py` lookup helpers -/

/-- The `available_plugins` dict from `get_available_plugins`: each key
maps a plugin (at its latest upstream version) to its list of mandatory
dependencies, in insertion order. -/
abbrev Catalog := List (JenkinsPlugin × List JenkinsPlugin)

/-- The `find_plugin(plugin_name, plugin_iterable)`: the first element whose
name equals `name` exactly (case-sensitively), if any. -/
def find_plugin (name : String) : List JenkinsPlugin → Option JenkinsPlugin
  | [] => none
  | p :: ps => if p.name = name then some p else find_plugin name ps

/-- Iterating the catalog dict yields its keys. -/
def catKeys (cat : Catalog) : List JenkinsPlugin := cat.map (fun kv => kv.1)

/-- The `for plugin, plugin_dependencies in available_plugins.items()`
loop of `depsolve`: dependencies of the first key with the exact name. -/
def lookupEntry (name : String) : Catalog → Option (List JenkinsPlugin)
  | [] => none
  | kv :: rest => if kv.1.name = name then some kv.2 else lookupEntry name rest

/-- Python `JenkinsPlugin(name, '0') in available_plugins` (a dict):
membership probes by hash first and only then checks `__eq__`, so a key
matches when its md5 name hash equals the probe's and the lower-cased
names agree. -/
def dictHasName (name : String) (cat : Catalog) : Bool :=
  cat.any (fun kv => jpHash kv.1 == md5Int (strBytes name) &&
    jpEqB kv.1 ⟨name, "0"⟩)

/-- The scan in `get_latest_version`: walk the keys whose name equals
`name` exactly, keeping the greater version (`plugin > latest_plugin`). -/
def glvScan (name : String) : List JenkinsPlugin → Option JenkinsPlugin → Except PyErr (Option JenkinsPlugin)
  | [], cur => .ok cur
  | p :: ps, none =>
    if p.name = name then glvScan name ps (some p) else glvScan name ps none
  | p :: ps, some l =>
    if p.name = name then
      match jpGt p l with
      | .error e => .error e
      | .ok true => glvScan name ps (some p)
      | .ok false => glvScan name ps (some l)
    else glvScan name ps (some l)

/-- The `get_latest_version(plugin_name, plugin_iterable)` with the dict
`available_plugins` as iterable: a hash-based membership guard raising
`PluginNotFound`, then a case-sensitive scan for the latest version. -/
def get_latest_version (name : String) (cat : Catalog) : Except PyErr (Option JenkinsPlugin) :=
  if dictHasName name cat then glvScan name (catKeys cat) none
  else .error (.notFound name)

/-- The `warn_if_newer_plugin(plugin, plugin_iterable)`: the warning itself is
a no-op for the state we track, but the `plugin > avail_plugin`
comparison it performs can raise. -/
def warn_if_newer_plugin (p : JenkinsPlugin) (cat : Catalog) : Except PyErr Unit :=
  match find_plugin p.name (catKeys cat) with
  | none => .ok ()
  | some a => (jpGt p a).map (fun _ => ())

def warnAll (cat : Catalog) : List JenkinsPlugin → Except PyErr Unit
  | [] => .ok ()
  | p :: ps =>
    match warn_if_newer_plugin p cat with
    | .error e => .error e
    | .ok _ => warnAll cat ps

/-! ## `depsolve` -/

/-- The inner `for i, dep in enumerate(dependencies)` merge of `depsolve`:
find the first entry with a case-insensitively equal name; replace it in
place when the new requirement's version is strictly greater, keep it
otherwise; append when no entry matches. -/
def mergeDep : List JenkinsPlugin → JenkinsPlugin → Except PyErr (List JenkinsPlugin)
  | [], d => .ok [d]
  | e :: rest, d =>
    if jpEqB d e then
      match jpGt d e with
      | .error err => .error err
      | .ok true => .ok (d :: rest)
      | .ok false => .ok (e :: rest)
    else (mergeDep rest d).map (fun l => e :: l)

/-- The `for plugin in plugin_dependencies` loop of `depsolve`: merge each
direct dependency into the accumulator, then recurse into its name
(`recurse` is the next-lower-fuel `depsolveAux`). -/
def depsolveLoop
    (recurse : String → List JenkinsPlugin → Option (Except PyErr (List JenkinsPlugin))) :
    List JenkinsPlugin → List JenkinsPlugin → Option (Except PyErr (List JenkinsPlugin))
  | [], deps => some (.ok deps)
  | d :: ds, deps =>
    match mergeDep deps d with
    | .error e => some (.error e)
    | .ok deps1 =>
      match recurse d.name deps1 with
      | none => none
      | some (.error e) => some (.error e)
      | some (.ok deps2) => depsolveLoop recurse ds deps2

/-- The `depsolve(plugin_name, available_plugins, dependencies)` for a
non-`None` accumulator: look the name up (first exact key), process each
direct dependency, then run the consistency-warning pass. -/
def depsolveAux (cat : Catalog) : Nat → String → List JenkinsPlugin → Option (Except PyErr (List JenkinsPlugin))
  | 0, _, _ => none
  | fuel + 1, name, deps =>
    match lookupEntry name cat with
    | none => some (.error (.notFound name))
    | some ds =>
      match depsolveLoop (depsolveAux cat fuel) ds deps with
      | none => none
      | some (.error e) => some (.error e)
      | some (.ok out) =>
        match warnAll cat out with
        | .error e => some (.error e)
        | .ok _ => some (.ok out)

/-- The public `depsolve(plugin_name, available_plugins)` call: seed the
accumulator with `get_latest_version` and solve.  When the hash-based
membership guard passes but the case-sensitive scan finds nothing, the
seed is Python `None`; the subsequent items() loop then fails to find the
name and raises `PluginNotFound` before the `None` is ever touched
(`attrError` marks the impossible remaining branch). -/
def depsolve (cat : Catalog) (fuel : Nat) (name : String) : Option (Except PyErr (List JenkinsPlugin)) :=
  match get_latest_version name cat with
  | .error e => some (.error e)
  | .ok (some l) => depsolveAux cat fuel name [l]
  | .ok none =>
    match lookupEntry name cat with
    | none => some (.error (.notFound name))
    | some _ => some (.error .attrError)

/-! ## Plugin-list files -/

/-- Python `str.strip()` whitespace (the ASCII portion, which is all the
list files contain). -/
def isPySpace (c : Char) : Bool :=
  c = ' ' || c = '\t' || c = '\n' || c = '\r' || c = '\x0b' || c = '\x0c'

def stripChars (cs : List Char) : List Char :=
  ((cs.dropWhile isPySpace).reverse.dropWhile isPySpace).reverse

/-- Python `s.split('==')`: split on each non-overlapping occurrence of
`==`, scanning left to right. -/
def splitEE : List Char → List (List Char)
  | [] => [[]]
  | '=' :: '=' :: rest => [] :: splitEE rest
  | c :: rest =>
    match splitEE rest with
    | [] => [[c]]
    | p :: ps => (c :: p) :: ps

/-- The `file.readlines()`: split the contents into lines, each keeping its
terminating newline. -/
def readlinesGo : List Char → List Char → List (List Char)
  | acc, [] => if acc.isEmpty then [] else [acc.reverse]
  | acc, '\n' :: rest => (acc.reverse ++ ['\n']) :: readlinesGo [] rest
  | acc, c :: rest => readlinesGo (c :: acc) rest

def readlines (contents : String) : List (List Char) := readlinesGo [] contents.data

/-- Parsing of one list-file line in `_process_plugin_list`:
`JenkinsPlugin(*line.strip().split('=='))` succeeds only when the split
has exactly two parts; any other arity raises `TypeError`, caught and
turned into a bare-name entry `JenkinsPlugin(line.strip(), '0')`; an
entry whose name is blank is skipped. -/
def parseLine (line : List Char) : Option JenkinsPlugin :=
  let t := stripChars line
  let p : JenkinsPlugin :=
    match splitEE t with
    | [n, v] => ⟨n.asString, v.asString⟩
    | _ => ⟨t.asString, "0"⟩
  if p.name = "" then none else some p

/-- One iteration of the `_process_plugin_list` body after parsing: check
catalog availability, perform the `warn_if_newer_plugin` comparison for
available entries, record missing names, and honour `remove_missing`. -/
def processLines (cat : Catalog) (removeMissing : Bool) :
    List (List Char) → Except PyErr (List JenkinsPlugin × List String)
  | [] => .ok ([], [])
  | line :: rest =>
    match parseLine line with
    | none => processLines cat removeMissing rest
    | some p =>
      match find_plugin p.name (catKeys cat) with
      | some a =>
        match jpGt p a with
        | .error e => .error e
        | .ok _ =>
          match processLines cat removeMissing rest with
          | .error e => .error e
          | .ok (ps, removed) => .ok (p :: ps, removed)
      | none =>
        match processLines cat removeMissing rest with
        | .error e => .error e
        | .ok (ps, removed) =>
          .ok (if removeMissing then ps else p :: ps, p.name :: removed)

/-- The `_process_plugin_list(plugin_list_file, available_plugins,
remove_missing)`. -/
def process_plugin_list (contents : String) (cat : Catalog) (removeMissing : Bool) :
    Except PyErr (List JenkinsPlugin × List String) :=
  processLines cat removeMissing (readlines contents)

/-- The insertion-ordered string-keyed dict built by
`_refine_plugin_list`; a replacement keeps the key's position. -/
def refineIns (acc : List (String × JenkinsPlugin)) (p : JenkinsPlugin) :
    Except PyErr (List (String × JenkinsPlugin)) :=
  match acc with
  | [] => .ok [(p.name, p)]
  | (k, q) :: rest =>
    if k = p.name then
      match jpLt q p with
      | .error e => .error e
      | .ok true => .ok ((k, p) :: rest)
      | .ok false => .ok ((k, q) :: rest)
    else (refineIns rest p).map (fun l => (k, q) :: l)

def refineGo (seen : List String) :
    List JenkinsPlugin → List (String × JenkinsPlugin) → Except PyErr (List (String × JenkinsPlugin))
  | [], acc => .ok acc
  | p :: ps, acc =>
    if seen.contains p.name then refineGo seen ps acc
    else
      match refineIns acc p with
      | .error e => .error e
      | .ok acc1 => refineGo seen ps acc1

/-- The `_refine_plugin_list(plugin_list, seen_plugins)`: drop already-seen
names, keep the highest requested version per exact name, preserving
first-insertion order. -/
def refine_plugin_list (l : List JenkinsPlugin) (seen : List String) :
    Except PyErr (List JenkinsPlugin) :=
  (refineGo seen l []).map (fun acc => acc.map (fun kv => kv.2))

/-- The `JenkinsPlugin.plugin_list_entry`. -/
def plugin_list_entry (p : JenkinsPlugin) : String := p.name ++ "==" ++ p.version ++ "\n"

/-- Insert into an ascending list under Python string `<`. -/
def insLine (x : String) : List String → List String
  | [] => [x]
  | y :: ys => if lexLt y.data x.data then y :: insLine x ys else x :: y :: ys

def sortLines : List String → List String
  | [] => []
  | x :: xs => insLine x (sortLines xs)

/-- The `_write_plugin_list`: one serialized line per entry, sorted by the
literal line text. -/
def write_plugin_list (l : List JenkinsPlugin) : String :=
  String.join (sortLines (l.map plugin_list_entry))

/-- The `extended_deps` loop of all-entries mode: depsolve every entry,
skipping (only) `PluginNotFound` failures per entry. -/
def solveAllEntries (cat : Catalog) (fuel : Nat) :
    List JenkinsPlugin → Option (Except PyErr (List JenkinsPlugin))
  | [] => some (.ok [])
  | p :: ps =>
    match depsolve cat fuel p.name with
    | none => none
    | some (.error (.notFound _)) => solveAllEntries cat fuel ps
    | some (.error e) => some (.error e)
    | some (.ok cl) =>
      match solveAllEntries cat fuel ps with
      | none => none
      | some (.error e) => some (.error e)
      | some (.ok ext) => some (.ok (cl ++ ext))

/-- The resolution step of one list-file iteration: in single-target
mode, depsolve the named plugin when it is in this list, or when this is
the optional list and the target has not been seen; in all-entries mode,
depsolve every entry (recovering from `PluginNotFound` per entry) and
append all closures. -/
def solveStep (cat : Catalog) (fuel : Nat) (pl : List JenkinsPlugin)
    (isOptional : Bool) (updateName : Option String) (seen : List String) :
    Option (Except PyErr (List JenkinsPlugin)) :=
  match updateName with
  | some t =>
    if (find_plugin t pl).isSome || (isOptional && !(seen.contains t)) then
      match depsolve cat fuel t with
      | none => none
      | some (.error e) => some (.error e)
      | some (.ok cl) => some (.ok (pl ++ cl))
    else some (.ok pl)
  | none =>
    match solveAllEntries cat fuel pl with
    | none => none
    | some (.error e) => some (.error e)
    | some (.ok ext) => some (.ok (pl ++ ext))

/-- The body of the `for plugin_list_file in lists` loop of
`update_plugin_lists` for one file: returns the refined entry list, the
file's new contents, and the missing-plugin names recorded for it. -/
def processFile (cat : Catalog) (fuel : Nat) (contents : String)
    (isOptional dryRun removeMissing : Bool) (updateName : Option String)
    (seen : List String) :
    Option (Except PyErr (List JenkinsPlugin × String × List String)) :=
  match process_plugin_list contents cat removeMissing with
  | .error e => some (.error e)
  | .ok (pl, removed) =>
    match solveStep cat fuel pl isOptional updateName seen with
    | none => none
    | some (.error e) => some (.error e)
    | some (.ok full) =>
      match refine_plugin_list full seen with
      | .error e => some (.error e)
      | .ok refined =>
        some (.ok (refined, if dryRun then contents else write_plugin_list refined, removed))

/-- The outcome of one `update_plugin_lists` run over the two
precedence-ordered lists (`default` before `optional`, for both the prod
and the test pair): the refined in-memory entry lists, the resulting file
contents (unchanged on a dry run), and the missing-plugin report. -/
structure UPLResult where
  list1 : List JenkinsPlugin
  list2 : List JenkinsPlugin
  contents1 : String
  contents2 : String
  removed1 : List String
  removed2 : List String
deriving DecidableEq, Repr

/-- The `update_plugin_lists(plugin_lists_dir, available_plugins, dry_run,
test, remove_missing, update_plugin_name)`: process the two lists in
precedence order, accumulating the seen-name set in between. -/
def update_plugin_lists (cat : Catalog) (fuel : Nat) (c1 c2 : String)
    (dryRun removeMissing : Bool) (updateName : Option String) :
    Option (Except PyErr UPLResult) :=
  match processFile cat fuel c1 false dryRun removeMissing updateName [] with
  | none => none
  | some (.error e) => some (.error e)
  | some (.ok (r1, nc1, rm1)) =>
    let seen1 := r1.map (fun p => p.name)
    match processFile cat fuel c2 true dryRun removeMissing updateName seen1 with
    | none => none
    | some (.error e) => some (.error e)
    | some (.ok (r2, nc2, rm2)) =>
      some (.ok ⟨r1, r2, nc1, nc2, rm1, rm2⟩)

/-! ## The spec's description of version comparison (for refinement checks)

The following definitions are modelled from the spec's words, not from
the source, in order to compare the two: "Version comparison is
component-wise on the dot-separated segments of the version string: each
segment is compared numerically if both sides parse as integers,
otherwise lexically as strings; a version with fewer segments is treated
as having implicit zero/absent trailing segments that compare as less
than any present segment." -/

def splitOnDot : List Char → List (List Char)
  | [] => [[]]
  | '.' :: rest => [] :: splitOnDot rest
  | c :: rest =>
    match splitOnDot rest with
    | [] => [[c]]
    | p :: ps => (c :: p) :: ps

/-- A dot-separated segment read as an integer, when it is one. -/
def segToNat (cs : List Char) : Option Nat :=
  if cs ≠ [] ∧ cs.all (fun c => c.isDigit) then some (digitsVal cs) else none

/-- Modelled from the spec: one-segment comparison — numeric when both
sides parse as integers, otherwise lexical string comparison. -/
def specSegCmp (a b : List Char) : Ordering :=
  match segToNat a, segToNat b with
  | some m, some n => compare m n
  | _, _ => if lexLt a b then .lt else if lexLt b a then .gt else .eq

/-- Modelled from the spec: component-wise comparison of the segment
lists, a version with fewer segments comparing less than one that
extends it. -/
def specVerCmpSegs : List (List Char) → List (List Char) → Ordering
  | [], [] => .eq
  | [], _ :: _ => .lt
  | _ :: _, [] => .gt
  | a :: as, b :: bs =>
    match specSegCmp a b with
    | .eq => specVerCmpSegs as bs
    | o => o

/-- Modelled from the spec: the claim's version comparison on the
dot-separated segments of the two version strings. -/
def specVerLt (v w : String) : Bool :=
  specVerCmpSegs (splitOnDot v.data) (splitOnDot w.data) == .lt

/-! ## Reachability, termination and consistency predicates -/

/-- One mandatory-dependency edge between names: `b` is the declared name
of a direct dependency of the (first) catalog entry named `a`. -/
def depStep (cat : Catalog) (a b : String) : Prop :=
  ∃ ds, lookupEntry a cat = some ds ∧ ∃ d ∈ ds, b = d.name

/-- The `Reach cat a b`: the name `b` is reachable from the name `a` along
mandatory-dependency edges (in zero or more steps). -/
def Reach (cat : Catalog) : String → String → Prop :=
  Relation.ReflTransGen (depStep cat)

/-- The mandatory-dependency graph of the catalog has no (reachable or
unreachable) dependency cycle. -/
def AcyclicCat (cat : Catalog) : Prop :=
  ∀ n, ¬ Relation.TransGen (depStep cat) n n

/-- Some dependency cycle is reachable from `t`. -/
def CycleReachable (cat : Catalog) (t : String) : Prop :=
  ∃ m, Reach cat t m ∧ Relation.TransGen (depStep cat) m m

/-- Every version string occurring in the catalog (key versions and
declared dependency versions). -/
def versionsOf (cat : Catalog) : List String :=
  (cat.map (fun kv => kv.1.version :: kv.2.map (fun d => d.version))).flatten

/-- Every dependency name declared anywhere in the catalog has a catalog
entry of its own. -/
def SelfContainedCat (cat : Catalog) : Prop :=
  ∀ kv ∈ cat, ∀ d ∈ kv.2, lookupEntry d.name cat ≠ none

/-- Whether an `Except` value is a success. -/
def isOkB {ε α : Type} : Except ε α → Bool
  | .ok _ => true
  | .error _ => false

/-- All version strings of the catalog are pairwise comparable (no
`LooseVersion` comparison between them raises). -/
def VersionsOKCat (cat : Catalog) : Prop :=
  ∀ v ∈ versionsOf cat, ∀ w ∈ versionsOf cat, isOkB (verCmp v w) = true

/-- Recursion-depth bound: every mandatory-dependency chain out of `n`
is shorter than the given bound. -/
inductive DBound (cat : Catalog) : Nat → String → Prop where
  | mk (k : Nat) (n : String)
      (h : ∀ ds, lookupEntry n cat = some ds → ∀ d ∈ ds, DBound cat k d.name) :
      DBound cat (k + 1) n

/-- The versions that `depsolve(t)` encounters for (lower-cased) name `n`
during resolution: the seed version produced by the `get_latest_version`
scan, and every declared dependency version on an edge out of a
reachable name. -/
def EncVer (cat : Catalog) (t n : String) (v : String) : Prop :=
  (∃ l, glvScan t (catKeys cat) none = .ok (some l) ∧ lowerName l.name = n ∧ l.version = v) ∨
  (∃ m ds d, Reach cat t m ∧ lookupEntry m cat = some ds ∧ d ∈ ds ∧
    lowerName d.name = n ∧ d.version = v)

/-! ## Concrete catalogs and inputs used by the scenario theorems -/

/-- The spec's §8 scenario catalog: `{A: v2 deps [], B: v1 deps [A@v1]}`. -/
def catA : Catalog := [(⟨"B", "1"⟩, [⟨"A", "1"⟩]), (⟨"A", "2"⟩, [])]

/-- A catalog whose only key differs from the probe name `foo` in letter
case. -/
def catFoo : Catalog := [(⟨"Foo", "2"⟩, [])]

/-- A catalog with a dependency cycle (`C`) reachable from `T`, but where
resolution of `T` first dies on the catalog-missing dependency `X`. -/
def catT : Catalog :=
  [(⟨"T", "1"⟩, [⟨"X", "1"⟩, ⟨"C", "1"⟩]), (⟨"C", "1"⟩, [⟨"C", "1"⟩])]

/-- A self-contained catalog that is one big dependency cycle. -/
def catC : Catalog := [(⟨"C", "1"⟩, [⟨"C", "1"⟩])]

/-! ## Invariant vocabulary for the `depsolve` proofs -/

/-- No two closure entries share a (lower-cased) name. -/
def NodupLower (l : List JenkinsPlugin) : Prop :=
  l.Pairwise (fun p q => lowerName p.name ≠ lowerName q.name)

/-- A closure slot evolves by being replaced with a strictly newer,
case-insensitively same-named requirement. -/
def Evolves (p q : JenkinsPlugin) : Prop :=
  lowerName p.name = lowerName q.name ∧ (p = q ∨ verCmp q.version p.version = .ok .gt)

/-- Every entry of `l1` has a (possibly newer) same-named entry in `l2`. -/
def ListEvolve (l1 l2 : List JenkinsPlugin) : Prop :=
  ∀ p ∈ l1, ∃ q ∈ l2, Evolves p q

/-- Where a closure entry can come from during `depsolve(t)`: the
`get_latest_version` seed, or a declared direct dependency of some name
reachable from `t`. -/
def OriginEntry (cat : Catalog) (t : String) (p : JenkinsPlugin) : Prop :=
  glvScan t (catKeys cat) none = .ok (some p) ∨
  ∃ m ds, Reach cat t m ∧ lookupEntry m cat = some ds ∧ p ∈ ds

/-- Every dependency edge out of a name reachable from `n` is accounted
for in `out`: the closure holds a same-named entry that the declared
version does not exceed. -/
def SettledFrom (cat : Catalog) (n : String) (out : List JenkinsPlugin) : Prop :=
  ∀ m ds d, Reach cat n m → lookupEntry m cat = some ds → d ∈ ds →
    ∃ q ∈ out, lowerName q.name = lowerName d.name ∧ verCmp d.version q.version ≠ .ok .gt

/-- Every name reachable from `n` has a same-named entry in `out`. -/
def PresentFrom (cat : Catalog) (n : String) (out : List JenkinsPlugin) : Prop :=
  ∀ m, Reach cat n m → ∃ q ∈ out, lowerName q.name = lowerName m

/-! ## Basic facts about the comparison orders -/

theorem lexLt_irrefl (s : List Char) : lexLt s s = false := by
  induction s with
  | nil => rfl
  | cons c cs ih => simp [lexLt, ih]

theorem lexLt_asymm {a b : List Char} (h : lexLt a b = true) : lexLt b a = false := by
  induction a generalizing b with
  | nil => cases b with
    | nil => simp [lexLt] at h
    | cons y ys => simp [lexLt]
  | cons x xs ih =>
    cases b with
    | nil => simp [lexLt] at h
    | cons y ys =>
      by_cases hxy : x < y
      · have hyx : ¬ y < x := fun h2 => absurd hxy (lt_asymm h2)
        simp [lexLt, hxy, hyx]
      · by_cases hyx : y < x
        · simp [lexLt, hxy, hyx] at h
        · simp [lexLt, hxy, hyx] at h ⊢
          exact ih h

theorem lexLt_trans {a b c : List Char} (h1 : lexLt a b = true) (h2 : lexLt b c = true) :
    lexLt a c = true := by
  induction a generalizing b c with
  | nil =>
    cases b with
    | nil => simp [lexLt] at h1
    | cons y ys =>
      cases c with
      | nil => simp [lexLt] at h2
      | cons z zs => simp [lexLt]
  | cons x xs ih =>
    cases b with
    | nil => simp [lexLt] at h1
    | cons y ys =>
      cases c with
      | nil => simp [lexLt] at h2
      | cons z zs =>
        by_cases hxy : x < y <;> by_cases hyz : y < z
        · simp [lexLt, lt_trans hxy hyz]
        · simp [lexLt, hyz, lexLt] at h2
          obtain ⟨hzy, _⟩ := h2
          have hyz' : y = z := le_antisymm hzy (not_lt.mp hyz)
          subst hyz'
          simp [lexLt, hxy]
        · simp [lexLt, hxy] at h1
          obtain ⟨hyx, h1⟩ := h1
          have hxy' : x = y := le_antisymm hyx (not_lt.mp hxy)
          subst hxy'
          simp [lexLt, hyz]
        · simp [lexLt, hxy] at h1
          simp [lexLt, hyz] at h2
          obtain ⟨hyx, h1⟩ := h1
          obtain ⟨hzy, h2⟩ := h2
          have hxy' : x = y := le_antisymm hyx (not_lt.mp hxy)
          subst hxy'
          simp [lexLt, hxy, hyz]
          exact ⟨hzy, ih h1 h2⟩

theorem lexLt_antisymm {a b : List Char} (h1 : lexLt a b = false) (h2 : lexLt b a = false) :
    a = b := by
  induction a generalizing b with
  | nil =>
    cases b with
    | nil => rfl
    | cons y ys => simp [lexLt] at h1
  | cons x xs ih =>
    cases b with
    | nil => simp [lexLt] at h2
    | cons y ys =>
      by_cases hxy : x < y
      · simp [lexLt, hxy] at h1
      · by_cases hyx : y < x
        · simp [lexLt, hyx, lt_asymm hyx] at h2
        · have hxy' : x = y := le_antisymm (not_lt.mp hyx) (not_lt.mp hxy)
          subst hxy'
          simp [lexLt, hxy] at h1 h2
          rw [ih h1 h2]


theorem pyCompare_self (a : List VComp) : pyCompare a a = some .eq := by
  induction a with
  | nil => rfl
  | cons x as ih => cases x with
    | num n => simp [pyCompare, ih]
    | str s => simp [pyCompare, lexLt_irrefl, ih]

theorem pyCompare_gt_trans : ∀ {a b c : List VComp},
    pyCompare a b = some .gt → pyCompare b c = some .gt → pyCompare a c = some .gt := by
  intro a
  induction a with
  | nil =>
    intro b c h1 h2
    cases b <;> simp [pyCompare] at h1
  | cons x as ih =>
    intro b c h1 h2
    cases b with
    | nil => cases c <;> simp [pyCompare] at h2
    | cons y bs =>
      cases c with
      | nil => simp [pyCompare]
      | cons z cs =>
        cases x with
        | num m =>
          cases y with
          | str s => simp [pyCompare] at h1
          | num n =>
            cases z with
            | str s => simp [pyCompare] at h2
            | num k =>
              rcases Nat.lt_trichotomy m n with hmn | hmn | hmn
              · simp [pyCompare, hmn] at h1
              · subst hmn
                simp [pyCompare, lt_irrefl] at h1
                rcases Nat.lt_trichotomy m k with hnk | hnk | hnk
                · simp [pyCompare, hnk] at h2
                · subst hnk
                  simp [pyCompare, lt_irrefl] at h2 ⊢
                  exact ih h1 h2
                · simp [pyCompare, hnk, Nat.lt_asymm hnk]
              · rcases Nat.lt_trichotomy n k with hnk | hnk | hnk
                · simp [pyCompare, hnk] at h2
                · subst hnk
                  simp [pyCompare, hmn, Nat.lt_asymm hmn]
                · have hkm : k < m := lt_trans hnk hmn
                  simp [pyCompare, hkm, Nat.lt_asymm hkm]
        | str s =>
          cases y with
          | num n => simp [pyCompare] at h1
          | str t =>
            cases z with
            | num k => simp [pyCompare] at h2
            | str u =>
              by_cases hst : lexLt s t = true
              · simp [pyCompare, hst] at h1
              · by_cases hts : lexLt t s = true
                · by_cases htu : lexLt t u = true
                  · simp [pyCompare, htu] at h2
                  · by_cases hut : lexLt u t = true
                    · have hus : lexLt u s = true := lexLt_trans hut hts
                      simp [pyCompare, lexLt_asymm hus, hus]
                    · have htu' : t = u := lexLt_antisymm (Bool.eq_false_iff.mpr htu) (Bool.eq_false_iff.mpr hut)
                      subst htu'
                      simp [pyCompare, hst, hts]
                · have hst' : s = t := lexLt_antisymm (Bool.eq_false_iff.mpr hst) (Bool.eq_false_iff.mpr hts)
                  subst hst'
                  simp [pyCompare, hst, hts] at h1
                  by_cases htu : lexLt s u = true
                  · simp [pyCompare, htu] at h2
                  · by_cases hut : lexLt u s = true
                    · simp [pyCompare, hut, lexLt_asymm hut]
                    · have : s = u := lexLt_antisymm (Bool.eq_false_iff.mpr htu) (Bool.eq_false_iff.mpr hut)
                      subst this
                      simp [pyCompare, htu] at h2 ⊢
                      exact ih h1 h2

theorem verCmp_gt_trans {a b c : String} (h1 : verCmp a b = .ok .gt)
    (h2 : verCmp b c = .ok .gt) : verCmp a c = .ok .gt := by
  unfold verCmp at *
  by_cases ha : a = "" <;> by_cases hb : b = "" <;> by_cases hc : c = "" <;>
    simp [ha, hb, hc] at h1 h2 ⊢
  · cases g1 : pyCompare (looseTokens a) (looseTokens b) with
    | none => simp [g1] at h1
    | some o1 =>
      cases g2 : pyCompare (looseTokens b) (looseTokens c) with
      | none => simp [g2] at h2
      | some o2 =>
        simp [g1] at h1
        simp [g2] at h2
        subst h1; subst h2
        simp [pyCompare_gt_trans g1 g2]

theorem verCmp_not_gt_self (v : String) : verCmp v v ≠ .ok .gt := by
  unfold verCmp
  by_cases hv : v = ""
  · simp [hv]
  · simp [hv, pyCompare_self]

theorem jpGt_true_iff {p q : JenkinsPlugin} :
    jpGt p q = .ok true ↔ verCmp p.version q.version = .ok .gt := by
  unfold jpGt
  cases h : verCmp p.version q.version with
  | error e => simp [Except.map]
  | ok o => cases o <;> simp [Except.map] <;> decide

theorem jpGt_false_not_gt {p q : JenkinsPlugin} (h : jpGt p q = .ok false) :
    verCmp p.version q.version ≠ .ok .gt := by
  unfold jpGt at h
  cases g : verCmp p.version q.version with
  | error e => simp
  | ok o =>
    rw [g] at h
    cases o <;> simp_all [Except.map]
    exact absurd h (by decide)

theorem jpEqB_iff {p q : JenkinsPlugin} :
    jpEqB p q = true ↔ lowerName p.name = lowerName q.name := by
  unfold jpEqB
  exact beq_iff_eq

/-! ## Evolution lemmas -/

theorem evolves_refl (p : JenkinsPlugin) : Evolves p p := ⟨rfl, Or.inl rfl⟩

theorem evolves_trans {p q r : JenkinsPlugin} (h1 : Evolves p q) (h2 : Evolves q r) :
    Evolves p r := by
  obtain ⟨hn1, hv1⟩ := h1
  obtain ⟨hn2, hv2⟩ := h2
  refine ⟨hn1.trans hn2, ?_⟩
  rcases hv1 with rfl | hv1
  · exact hv2
  · rcases hv2 with rfl | hv2
    · exact Or.inr hv1
    · exact Or.inr (verCmp_gt_trans hv2 hv1)

theorem listEvolve_refl (l : List JenkinsPlugin) : ListEvolve l l :=
  fun p hp => ⟨p, hp, evolves_refl p⟩

theorem listEvolve_trans {l1 l2 l3 : List JenkinsPlugin} (h1 : ListEvolve l1 l2)
    (h2 : ListEvolve l2 l3) : ListEvolve l1 l3 := by
  intro p hp
  obtain ⟨q, hq, hpq⟩ := h1 p hp
  obtain ⟨r, hr, hqr⟩ := h2 q hq
  exact ⟨r, hr, evolves_trans hpq hqr⟩

/-- A version that did not exceed a slot still does not exceed the slot
after the slot evolves. -/
theorem notGt_evolves {v : String} {q q' : JenkinsPlugin} (he : Evolves q q')
    (h : verCmp v q.version ≠ .ok .gt) : verCmp v q'.version ≠ .ok .gt := by
  rcases he.2 with rfl | hgt
  · exact h
  · intro hv
    exact h (verCmp_gt_trans hv hgt)

/-! ## Lemmas about the in-place merge of `depsolve` -/

theorem mergeDep_spec : ∀ {deps : List JenkinsPlugin} {d : JenkinsPlugin}
    {out : List JenkinsPlugin}, mergeDep deps d = .ok out →
    ListEvolve deps out ∧
    (∀ q ∈ out, q ∈ deps ∨ q = d) ∧
    (∃ q ∈ out, lowerName q.name = lowerName d.name ∧ verCmp d.version q.version ≠ .ok .gt) ∧
    (NodupLower deps → NodupLower out) := by
  intro deps
  induction deps with
  | nil =>
    intro d out h
    simp [mergeDep] at h
    subst h
    refine ⟨fun p hp => absurd hp (List.not_mem_nil p), ?_, ?_, ?_⟩
    · intro q hq; simp at hq; subst hq; exact Or.inr rfl
    · exact ⟨d, by simp, rfl, verCmp_not_gt_self _⟩
    · intro _; exact List.pairwise_singleton _ _
  | cons e rest ih =>
    intro d out h
    by_cases heq : jpEqB d e = true
    · have hname : lowerName d.name = lowerName e.name := jpEqB_iff.mp heq
      cases hg : jpGt d e with
      | error err => simp [mergeDep, heq, hg] at h
      | ok b =>
        cases b
        · simp [mergeDep, heq, hg] at h
          subst h
          exact ⟨listEvolve_refl _, fun q hq => Or.inl hq,
            ⟨e, by simp, hname.symm, jpGt_false_not_gt hg⟩, id⟩
        · simp [mergeDep, heq, hg] at h
          subst h
          refine ⟨?_, ?_, ⟨d, by simp, rfl, verCmp_not_gt_self _⟩, ?_⟩
          · intro p hp
            rcases List.mem_cons.mp hp with rfl | hp
            · exact ⟨d, by simp, hname.symm, Or.inr (jpGt_true_iff.mp hg)⟩
            · exact ⟨p, by simp [hp], evolves_refl p⟩
          · intro q hq
            rcases List.mem_cons.mp hq with rfl | hq
            · exact Or.inr rfl
            · exact Or.inl (by simp [hq])
          · intro hnd
            cases hnd with
            | cons hhead htail =>
              refine List.Pairwise.cons ?_ htail
              intro q hq
              rw [hname]
              exact hhead q hq
    · cases hrec : mergeDep rest d with
      | error err => simp [mergeDep, heq, hrec, Except.map] at h
      | ok out' =>
        have h' : out = e :: out' := by
          simp [mergeDep, heq, hrec, Except.map] at h
          exact h.symm
        subst h'
        obtain ⟨ihEv, ihSrc, ihHas, ihNd⟩ := ih hrec
        refine ⟨?_, ?_, ?_, ?_⟩
        · intro p hp
          rcases List.mem_cons.mp hp with rfl | hp
          · exact ⟨p, by simp, evolves_refl p⟩
          · obtain ⟨q, hq, hpq⟩ := ihEv p hp
            exact ⟨q, by simp [hq], hpq⟩
        · intro q hq
          rcases List.mem_cons.mp hq with rfl | hq
          · exact Or.inl (by simp)
          · rcases ihSrc q hq with h1 | h1
            · exact Or.inl (by simp [h1])
            · exact Or.inr h1
        · obtain ⟨q, hq, hn, hv⟩ := ihHas
          exact ⟨q, by simp [hq], hn, hv⟩
        · intro hnd
          cases hnd with
          | cons hhead htail =>
            refine List.Pairwise.cons ?_ (ihNd htail)
            intro q hq
            rcases ihSrc q hq with h1 | h1
            · exact hhead q h1
            · subst h1
              intro hcon
              exact heq (jpEqB_iff.mpr hcon.symm)

theorem pyCompare_swap : ∀ (a b : List VComp),
    pyCompare b a = (pyCompare a b).map Ordering.swap := by
  intro a
  induction a with
  | nil =>
    intro b
    cases b <;> simp [pyCompare, Ordering.swap]
  | cons x as ih =>
    intro b
    cases b with
    | nil => simp [pyCompare, Ordering.swap]
    | cons y bs =>
      cases x with
      | num m =>
        cases y with
        | str s => simp [pyCompare, Ordering.swap]
        | num n =>
          rcases Nat.lt_trichotomy m n with hmn | hmn | hmn
          · simp [pyCompare, Ordering.swap, hmn, Nat.lt_asymm hmn]
          · subst hmn
            simp [pyCompare, Ordering.swap, lt_irrefl, ih bs]
          · simp [pyCompare, Ordering.swap, hmn, Nat.lt_asymm hmn]
      | str s =>
        cases y with
        | num n => simp [pyCompare, Ordering.swap]
        | str t =>
          by_cases hst : lexLt s t = true
          · simp [pyCompare, Ordering.swap, hst, lexLt_asymm hst]
          · by_cases hts : lexLt t s = true
            · simp [pyCompare, Ordering.swap, hts, lexLt_asymm hts]
            · have h1 : lexLt s t = false := Bool.eq_false_iff.mpr hst
              have h2 : lexLt t s = false := Bool.eq_false_iff.mpr hts
              simp [pyCompare, Ordering.swap, h1, h2, ih bs]

theorem verCmp_gt_asymm {a b : String} (h : verCmp a b = .ok .gt) :
    verCmp b a ≠ .ok .gt := by
  unfold verCmp at *
  by_cases ha : a = "" <;> by_cases hb : b = "" <;> simp [ha, hb] at h ⊢
  rw [pyCompare_swap (looseTokens a) (looseTokens b)]
  cases g : pyCompare (looseTokens a) (looseTokens b) with
  | none => simp [g] at h
  | some o =>
    simp [g] at h
    subst h
    simp [Option.map, Ordering.swap]

theorem nodupLower_unique {l : List JenkinsPlugin} (h : NodupLower l)
    {p q : JenkinsPlugin} (hp : p ∈ l) (hq : q ∈ l)
    (hn : lowerName p.name = lowerName q.name) : p = q := by
  induction l with
  | nil => cases hp
  | cons e rest ih =>
    cases h with
    | cons hhead htail =>
      rcases List.mem_cons.mp hp with rfl | hp' <;>
        rcases List.mem_cons.mp hq with rfl | hq'
      · rfl
      · exact absurd hn (hhead q hq')
      · exact absurd hn.symm (hhead p hp')
      · exact ih htail hp' hq'

theorem settledFrom_evolve {cat : Catalog} {x : String}
    {l l' : List JenkinsPlugin} (h : SettledFrom cat x l) (he : ListEvolve l l') :
    SettledFrom cat x l' := by
  intro m ds d hr hlk hd
  obtain ⟨q, hq, hn, hv⟩ := h m ds d hr hlk hd
  obtain ⟨q', hq', hqe⟩ := he q hq
  exact ⟨q', hq', hqe.1.symm.trans hn, notGt_evolves hqe hv⟩

theorem presentFrom_evolve {cat : Catalog} {x : String}
    {l l' : List JenkinsPlugin} (h : PresentFrom cat x l) (he : ListEvolve l l') :
    PresentFrom cat x l' := by
  intro m hr
  obtain ⟨q, hq, hn⟩ := h m hr
  obtain ⟨q', hq', hqe⟩ := he q hq
  exact ⟨q', hq', hqe.1.symm.trans hn⟩

theorem lookupEntry_det {cat : Catalog} {n : String} {ds ds' : List JenkinsPlugin}
    (h1 : lookupEntry n cat = some ds) (h2 : lookupEntry n cat = some ds') : ds = ds' := by
  rw [h1] at h2
  exact Option.some_injective _ h2

/-- One dependency edge gives one reachability step. -/
theorem reach_step {cat : Catalog} {n : String} {ds : List JenkinsPlugin}
    {d : JenkinsPlugin} (hlk : lookupEntry n cat = some ds) (hd : d ∈ ds) :
    Reach cat n d.name :=
  Relation.ReflTransGen.single ⟨ds, hlk, d, hd, rfl⟩

/-- The closure invariants carried through the `for plugin in
plugin_dependencies` loop, parameterised by the behaviour of the
recursive call. -/
theorem depsolveLoop_master (cat : Catalog) (t : String)
    (recurse : String → List JenkinsPlugin → Option (Except PyErr (List JenkinsPlugin)))
    (Hrec : ∀ n deps out, Reach cat t n →
      (∃ p ∈ deps, lowerName p.name = lowerName n) →
      (∀ p ∈ deps, OriginEntry cat t p) → NodupLower deps →
      recurse n deps = some (.ok out) →
      NodupLower out ∧ (∀ p ∈ out, OriginEntry cat t p) ∧ ListEvolve deps out ∧
      SettledFrom cat n out ∧ PresentFrom cat n out)
    (n : String) (ds : List JenkinsPlugin) (hre : Reach cat t n)
    (hlk : lookupEntry n cat = some ds) :
    ∀ sfx acc out, (∀ d ∈ sfx, d ∈ ds) →
      (∀ p ∈ acc, OriginEntry cat t p) → NodupLower acc →
      depsolveLoop recurse sfx acc = some (.ok out) →
      NodupLower out ∧ (∀ p ∈ out, OriginEntry cat t p) ∧ ListEvolve acc out ∧
      (∀ d ∈ sfx,
        (∃ q ∈ out, lowerName q.name = lowerName d.name ∧
          verCmp d.version q.version ≠ .ok .gt) ∧
        SettledFrom cat d.name out ∧ PresentFrom cat d.name out) := by
  intro sfx
  induction sfx with
  | nil =>
    intro acc out _ horig hnd h
    simp [depsolveLoop] at h
    subst h
    exact ⟨hnd, horig, listEvolve_refl _, by simp⟩
  | cons d sfx' ihl =>
    intro acc out hsub horig hnd h
    have hd : d ∈ ds := hsub d (by simp)
    cases hmrg : mergeDep acc d with
    | error e => simp [depsolveLoop, hmrg] at h
    | ok acc1 =>
      simp only [depsolveLoop, hmrg] at h
      cases hrec : recurse d.name acc1 with
      | none => simp [hrec] at h
      | some r =>
        cases r with
        | error e => simp [hrec] at h
        | ok acc2 =>
          simp only [hrec] at h
          obtain ⟨ev1, src1, has1, nd1⟩ := mergeDep_spec hmrg
          have horig1 : ∀ p ∈ acc1, OriginEntry cat t p := by
            intro p hp
            rcases src1 p hp with hp' | rfl
            · exact horig p hp'
            · exact Or.inr ⟨n, ds, hre, hlk, hd⟩
          have hred : Reach cat t d.name := hre.trans (reach_step hlk hd)
          have hhas1 : ∃ p ∈ acc1, lowerName p.name = lowerName d.name := by
            obtain ⟨q, hq, hn, _⟩ := has1
            exact ⟨q, hq, hn⟩
          obtain ⟨nd2, horig2, ev2, settled2, present2⟩ :=
            Hrec d.name acc1 acc2 hred hhas1 horig1 (nd1 hnd) hrec
          obtain ⟨nd3, horig3, ev3, hrest⟩ :=
            ihl acc2 out (fun x hx => hsub x (by simp [hx])) horig2 nd2 h
          refine ⟨nd3, horig3,
            listEvolve_trans ev1 (listEvolve_trans ev2 ev3), ?_⟩
          intro d' hd'
          rcases List.mem_cons.mp hd' with rfl | hd'
          · refine ⟨?_, settledFrom_evolve settled2 ev3, presentFrom_evolve present2 ev3⟩
            obtain ⟨q, hq, hnq, hvq⟩ := has1
            obtain ⟨q2, hq2, hqe2⟩ := ev2 q hq
            obtain ⟨q3, hq3, hqe3⟩ := ev3 q2 hq2
            have hqe := evolves_trans hqe2 hqe3
            exact ⟨q3, hq3, hqe.1.symm.trans hnq, notGt_evolves hqe hvq⟩
          · exact hrest d' hd'

/-- The closure invariants of `depsolve` with a non-`None` accumulator:
on success, the result has no duplicate (case-insensitive) names, every
entry originates from the seed or a reachable dependency edge, the
accumulator only evolved upwards, and every dependency edge reachable
from `n` is settled and its name present. -/
theorem depsolve_master (cat : Catalog) (t : String) : ∀ (fuel : Nat) n deps out,
    Reach cat t n →
    (∃ p ∈ deps, lowerName p.name = lowerName n) →
    (∀ p ∈ deps, OriginEntry cat t p) →
    NodupLower deps →
    depsolveAux cat fuel n deps = some (.ok out) →
    NodupLower out ∧ (∀ p ∈ out, OriginEntry cat t p) ∧ ListEvolve deps out ∧
    SettledFrom cat n out ∧ PresentFrom cat n out := by
  intro fuel
  induction fuel with
  | zero =>
    intro n deps out _ _ _ _ h
    simp [depsolveAux] at h
  | succ fuel ih =>
    intro n deps out hre hhas horig hnd h
    rw [depsolveAux] at h
    cases hlk : lookupEntry n cat with
    | none => simp [hlk] at h
    | some ds =>
      simp only [hlk] at h
      cases hloop : depsolveLoop (depsolveAux cat fuel) ds deps with
      | none => simp [hloop] at h
      | some r =>
        cases r with
        | error e => simp [hloop] at h
        | ok out' =>
          simp only [hloop] at h
          cases hw : warnAll cat out' with
          | error e => simp [hw] at h
          | ok u =>
            simp only [hw] at h
            have hout : out' = out := by
              simpa using h
            subst hout
            obtain ⟨nd, horig', ev, hds⟩ :=
              depsolveLoop_master cat t (depsolveAux cat fuel) ih n ds hre hlk
                ds deps out' (fun x hx => hx) horig hnd hloop
            refine ⟨nd, horig', ev, ?_, ?_⟩
            · intro m ds' d' hr hlk' hd'
              rcases Relation.ReflTransGen.cases_head hr with rfl | ⟨b, hstep, hr'⟩
              · have : ds' = ds := lookupEntry_det hlk' hlk
                subst this
                exact (hds d' hd').1
              · obtain ⟨ds0, hlk0, d0, hd0, rfl⟩ := hstep
                have : ds0 = ds := lookupEntry_det hlk0 hlk
                subst this
                exact (hds d0 hd0).2.1 m ds' d' hr' hlk' hd'
            · intro m hr
              rcases Relation.ReflTransGen.cases_head hr with rfl | ⟨b, hstep, hr'⟩
              · obtain ⟨p, hp, hn⟩ := hhas
                obtain ⟨q, hq, hqe⟩ := ev p hp
                exact ⟨q, hq, hqe.1.symm.trans hn⟩
              · obtain ⟨ds0, hlk0, d0, hd0, rfl⟩ := hstep
                have : ds0 = ds := lookupEntry_det hlk0 hlk
                subst this
                exact (hds d0 hd0).2.2 m hr'

theorem glvScan_name {name : String} : ∀ {keys : List JenkinsPlugin}
    {cur : Option JenkinsPlugin} {l : JenkinsPlugin},
    (∀ c, cur = some c → c.name = name) →
    glvScan name keys cur = .ok (some l) → l.name = name := by
  intro keys
  induction keys with
  | nil =>
    intro cur l hcur h
    simp [glvScan] at h
    exact hcur l h
  | cons p ps ih =>
    intro cur l hcur h
    cases cur with
    | none =>
      simp only [glvScan] at h
      by_cases hp : p.name = name
      · rw [if_pos hp] at h
        exact ih (fun c hc => by cases hc; exact hp) h
      · rw [if_neg hp] at h
        exact ih hcur h
    | some c =>
      simp only [glvScan] at h
      by_cases hp : p.name = name
      · rw [if_pos hp] at h
        cases hg : jpGt p c with
        | error e => simp [hg] at h
        | ok b =>
          simp only [hg] at h
          cases b
          · exact ih (fun c' hc' => by cases hc'; exact hcur _ rfl) h
          · exact ih (fun c' hc' => by cases hc'; exact hp) h
      · rw [if_neg hp] at h
        exact ih hcur h

/-- C2: for every catalog and plugin name, whenever `depsolve` returns a
closure, that closure has exactly one entry per distinct
(case-insensitive) name reachable from the target — every entry's name
is reachable, every reachable name is represented, and no two entries
share a lower-cased name — and each entry carries a version that was
encountered for that name during resolution and that no other
encountered version for that name strictly exceeds. -/
theorem depsolve_closure_unique_max (cat : Catalog) (fuel : Nat) (t : String)
    (cl : List JenkinsPlugin) (h : depsolve cat fuel t = some (.ok cl)) :
    (cl.map (fun p => lowerName p.name)).Nodup ∧
    (∀ p ∈ cl, Reach cat t p.name) ∧
    (∀ n, Reach cat t n → ∃ p ∈ cl, lowerName p.name = lowerName n) ∧
    (∀ p ∈ cl, EncVer cat t (lowerName p.name) p.version ∧
      ∀ v, EncVer cat t (lowerName p.name) v → verCmp v p.version ≠ .ok .gt) := by
  unfold depsolve at h
  cases hg : get_latest_version t cat with
  | error e => rw [hg] at h; cases h
  | ok latest =>
    rw [hg] at h
    cases latest with
    | none =>
      cases hlk : lookupEntry t cat with
      | none => rw [hlk] at h; cases h
      | some ds => rw [hlk] at h; cases h
    | some l =>
      unfold get_latest_version at hg
      by_cases hmem : dictHasName t cat = true
      · rw [if_pos hmem] at hg
        have hlname : l.name = t := glvScan_name (fun c hc => by cases hc) hg
        obtain ⟨nd, orig, ev, settled, present⟩ :=
          depsolve_master cat t fuel t [l] cl Relation.ReflTransGen.refl
            ⟨l, by simp, by rw [hlname]⟩
            (fun p hp => by
              simp at hp
              subst hp
              exact Or.inl hg)
            (List.pairwise_singleton _ _) h
        refine ⟨?_, ?_, ?_, ?_⟩
        · unfold List.Nodup
          rw [List.pairwise_map]
          exact nd
        · intro p hp
          rcases orig p hp with hseed | ⟨m, ds, hr, hlk', hp'⟩
          · have : p = l := by
              rw [hg] at hseed
              exact (Option.some_injective _ (Except.ok.inj hseed)).symm
            subst this
            rw [hlname]
            exact Relation.ReflTransGen.refl
          · exact hr.trans (reach_step hlk' hp')
        · exact present
        · intro p hp
          constructor
          · rcases orig p hp with hseed | ⟨m, ds, hr, hlk', hp'⟩
            · exact Or.inl ⟨p, hseed, rfl, rfl⟩
            · exact Or.inr ⟨m, ds, p, hr, hlk', hp', rfl, rfl⟩
          · intro v hv
            rcases hv with ⟨l0, hscan0, hn0, hv0⟩ | ⟨m, ds, d, hr, hlk', hd, hn, hvv⟩
            · have hl0 : l0 = l := by
                have h2 := hscan0.symm.trans hg
                exact Option.some_injective _ (Except.ok.inj h2)
              subst hl0
              obtain ⟨q, hq, hqe⟩ := ev l0 (by simp)
              have hqp : q = p := by
                apply nodupLower_unique nd hq hp
                rw [← hqe.1]
                exact hn0
              subst hqp
              subst hv0
              rcases hqe.2 with heq | hgt
              · rw [heq]
                exact verCmp_not_gt_self _
              · exact verCmp_gt_asymm hgt
            · obtain ⟨q, hq, hnq, hvq⟩ := settled m ds d hr hlk' hd
              have hqp : q = p := by
                apply nodupLower_unique nd hq hp
                rw [hnq, hn]
              subst hqp
              subst hvv
              exact hvq
      · rw [if_neg hmem] at hg; cases hg

/-! ## Catalog membership helpers -/

theorem lookupEntry_exists_kv : ∀ {cat : Catalog} {n : String} {ds : List JenkinsPlugin},
    lookupEntry n cat = some ds → ∃ kv ∈ cat, kv.1.name = n ∧ kv.2 = ds := by
  intro cat
  induction cat with
  | nil => intro n ds h; cases h
  | cons kv rest ih =>
    intro n ds h
    rw [lookupEntry] at h
    by_cases hn : kv.1.name = n
    · rw [if_pos hn] at h
      exact ⟨kv, by simp, hn, Option.some_injective _ h⟩
    · rw [if_neg hn] at h
      obtain ⟨kv', hkv', h1, h2⟩ := ih h
      exact ⟨kv', by simp [hkv'], h1, h2⟩

theorem lookupEntry_mem_names {cat : Catalog} {n : String} {ds : List JenkinsPlugin}
    (h : lookupEntry n cat = some ds) : n ∈ cat.map (fun kv => kv.1.name) := by
  obtain ⟨kv, hkv, h1, _⟩ := lookupEntry_exists_kv h
  exact List.mem_map.mpr ⟨kv, hkv, h1⟩

theorem mem_names_lookupEntry : ∀ {cat : Catalog} {n : String},
    n ∈ cat.map (fun kv => kv.1.name) → lookupEntry n cat ≠ none := by
  intro cat
  induction cat with
  | nil => intro n h; simp at h
  | cons kv rest ih =>
    intro n h
    rw [lookupEntry]
    by_cases hn : kv.1.name = n
    · simp [hn]
    · rw [if_neg hn]
      apply ih
      simp at h
      rcases h with h | h
      · exact absurd h.symm hn
      · exact List.mem_map.mpr (by simpa using h)

theorem mem_catKeys_iff {cat : Catalog} {a : JenkinsPlugin} :
    a ∈ catKeys cat ↔ ∃ kv ∈ cat, kv.1 = a := by
  unfold catKeys
  simp [List.mem_map]

theorem versionsOf_key {cat : Catalog} {kv : JenkinsPlugin × List JenkinsPlugin}
    (h : kv ∈ cat) : kv.1.version ∈ versionsOf cat := by
  unfold versionsOf
  rw [List.mem_flatten]
  exact ⟨kv.1.version :: kv.2.map (fun d => d.version), List.mem_map.mpr ⟨kv, h, rfl⟩, by simp⟩

theorem versionsOf_dep {cat : Catalog} {kv : JenkinsPlugin × List JenkinsPlugin}
    {d : JenkinsPlugin} (h : kv ∈ cat) (hd : d ∈ kv.2) : d.version ∈ versionsOf cat := by
  unfold versionsOf
  rw [List.mem_flatten]
  refine ⟨kv.1.version :: kv.2.map (fun x => x.version), List.mem_map.mpr ⟨kv, h, rfl⟩, ?_⟩
  simp only [List.mem_cons]
  exact Or.inr (List.mem_map.mpr ⟨d, hd, rfl⟩)

theorem versionsOf_lookup_dep {cat : Catalog} {n : String} {ds : List JenkinsPlugin}
    {d : JenkinsPlugin} (h : lookupEntry n cat = some ds) (hd : d ∈ ds) :
    d.version ∈ versionsOf cat := by
  obtain ⟨kv, hkv, _, h2⟩ := lookupEntry_exists_kv h
  exact versionsOf_dep hkv (h2 ▸ hd)

theorem versionsOf_catKey {cat : Catalog} {a : JenkinsPlugin} (h : a ∈ catKeys cat) :
    a.version ∈ versionsOf cat := by
  obtain ⟨kv, hkv, rfl⟩ := mem_catKeys_iff.mp h
  exact versionsOf_key hkv

theorem find_plugin_mem : ∀ {l : List JenkinsPlugin} {name : String} {a : JenkinsPlugin},
    find_plugin name l = some a → a ∈ l := by
  intro l
  induction l with
  | nil => intro name a h; cases h
  | cons p ps ih =>
    intro name a h
    rw [find_plugin] at h
    by_cases hn : p.name = name
    · rw [if_pos hn] at h
      simp [Option.some_injective _ h]
    · rw [if_neg hn] at h
      simp [ih h]

/-! ## Error-freedom under a self-contained, comparison-safe catalog -/

theorem verCmp_ok_of_vok {cat : Catalog} (VOK : VersionsOKCat cat) {v w : String}
    (hv : v ∈ versionsOf cat) (hw : w ∈ versionsOf cat) :
    ∃ o, verCmp v w = .ok o := by
  have := VOK v hv w hw
  cases h : verCmp v w with
  | error e => rw [h] at this; simp [isOkB] at this
  | ok o => exact ⟨o, rfl⟩

theorem mergeDep_ok_exists {cat : Catalog} (VOK : VersionsOKCat cat) :
    ∀ {acc : List JenkinsPlugin} {d : JenkinsPlugin},
    (∀ p ∈ acc, p.version ∈ versionsOf cat) → d.version ∈ versionsOf cat →
    ∃ acc1, mergeDep acc d = .ok acc1 ∧ ∀ p ∈ acc1, p.version ∈ versionsOf cat := by
  intro acc
  induction acc with
  | nil =>
    intro d _ hd
    exact ⟨[d], rfl, by simp [hd]⟩
  | cons e rest ih =>
    intro d hacc hd
    by_cases heq : jpEqB d e = true
    · obtain ⟨o, ho⟩ := verCmp_ok_of_vok VOK hd (hacc e (by simp))
      have hg : jpGt d e = .ok (o == .gt) := by
        unfold jpGt
        rw [ho]
        rfl
      cases hob : (o == Ordering.gt) with
      | true =>
        refine ⟨d :: rest, ?_, ?_⟩
        · simp [mergeDep, heq, hg, hob]
        · intro p hp
          rcases List.mem_cons.mp hp with rfl | hp
          · exact hd
          · exact hacc p (by simp [hp])
      | false =>
        refine ⟨e :: rest, ?_, fun p hp => hacc p hp⟩
        simp [mergeDep, heq, hg, hob]
    · obtain ⟨acc1, h1, h2⟩ := ih (fun p hp => hacc p (by simp [hp])) hd
      refine ⟨e :: acc1, ?_, ?_⟩
      · simp [mergeDep, heq, h1, Except.map]
      · intro p hp
        rcases List.mem_cons.mp hp with rfl | hp
        · exact hacc p (by simp)
        · exact h2 p hp

theorem warnAll_ok {cat : Catalog} (VOK : VersionsOKCat cat) :
    ∀ {l : List JenkinsPlugin}, (∀ p ∈ l, p.version ∈ versionsOf cat) →
    warnAll cat l = .ok () := by
  intro l
  induction l with
  | nil => intro _; rfl
  | cons p ps ih =>
    intro hl
    rw [warnAll]
    have hw : warn_if_newer_plugin p cat = .ok () := by
      unfold warn_if_newer_plugin
      cases hf : find_plugin p.name (catKeys cat) with
      | none => rfl
      | some a =>
        obtain ⟨o, ho⟩ := verCmp_ok_of_vok VOK (hl p (by simp))
          (versionsOf_catKey (find_plugin_mem hf))
        simp [jpGt, ho, Except.map]
    rw [hw]
    exact ih (fun q hq => hl q (by simp [hq]))

theorem cycleReachable_lookup {cat : Catalog} {n : String} (h : CycleReachable cat n) :
    ∃ ds, lookupEntry n cat = some ds := by
  obtain ⟨m, hr, hc⟩ := h
  rcases Relation.ReflTransGen.cases_head hr with rfl | ⟨b, hstep, _⟩
  · obtain ⟨b, hstep, _⟩ := Relation.TransGen.head'_iff.mp hc
    obtain ⟨ds, hlk, _⟩ := hstep
    exact ⟨ds, hlk⟩
  · obtain ⟨ds, hlk, _⟩ := hstep
    exact ⟨ds, hlk⟩

theorem cycleReachable_step {cat : Catalog} {n : String} {ds : List JenkinsPlugin}
    (h : CycleReachable cat n) (hl : lookupEntry n cat = some ds) :
    ∃ d ∈ ds, CycleReachable cat d.name := by
  obtain ⟨m, hr, hc⟩ := h
  rcases Relation.ReflTransGen.cases_head hr with rfl | ⟨b, hstep, hr'⟩
  · obtain ⟨b, hstep, hrb⟩ := Relation.TransGen.head'_iff.mp hc
    obtain ⟨ds0, hlk0, d, hd, rfl⟩ := hstep
    have : ds0 = ds := lookupEntry_det hlk0 hl
    subst this
    exact ⟨d, hd, n, hrb, hc⟩
  · obtain ⟨ds0, hlk0, d, hd, rfl⟩ := hstep
    have : ds0 = ds := lookupEntry_det hlk0 hl
    subst this
    exact ⟨d, hd, m, hr', hc⟩

/-- Under a self-contained catalog with pairwise-comparable versions,
`depsolve`'s worker either runs out of fuel or succeeds — it never
raises — and keeps all accumulator versions inside the catalog's version
universe. -/
theorem depsolveAux_good {cat : Catalog} (SC : SelfContainedCat cat)
    (VOK : VersionsOKCat cat) :
    ∀ (fuel : Nat) (n : String) (deps : List JenkinsPlugin),
    lookupEntry n cat ≠ none → (∀ p ∈ deps, p.version ∈ versionsOf cat) →
    depsolveAux cat fuel n deps = none ∨
    ∃ out, depsolveAux cat fuel n deps = some (.ok out) ∧
      ∀ p ∈ out, p.version ∈ versionsOf cat := by
  intro fuel
  induction fuel with
  | zero => intro n deps _ _; exact Or.inl rfl
  | succ fuel ih =>
    intro n deps hlk hdeps
    cases hl : lookupEntry n cat with
    | none => exact absurd hl hlk
    | some ds =>
      obtain ⟨kv, hkv, hkvn, hkvd⟩ := lookupEntry_exists_kv hl
      have hds_names : ∀ d ∈ ds, lookupEntry d.name cat ≠ none := by
        intro d hd
        exact SC kv hkv d (hkvd ▸ hd)
      have hds_vers : ∀ d ∈ ds, d.version ∈ versionsOf cat := by
        intro d hd
        exact versionsOf_dep hkv (hkvd ▸ hd)
      have hloop : ∀ sfx, (∀ d ∈ sfx, d ∈ ds) →
          ∀ acc, (∀ p ∈ acc, p.version ∈ versionsOf cat) →
          depsolveLoop (depsolveAux cat fuel) sfx acc = none ∨
          ∃ out, depsolveLoop (depsolveAux cat fuel) sfx acc = some (.ok out) ∧
            ∀ p ∈ out, p.version ∈ versionsOf cat := by
        intro sfx
        induction sfx with
        | nil =>
          intro _ acc hacc
          exact Or.inr ⟨acc, rfl, hacc⟩
        | cons d sfx' ihs =>
          intro hsub acc hacc
          obtain ⟨acc1, hm, hacc1⟩ :=
            mergeDep_ok_exists VOK hacc (hds_vers d (hsub d (by simp)))
          rcases ih d.name acc1 (hds_names d (hsub d (by simp))) hacc1 with
            hnone | ⟨acc2, hrec, hacc2⟩
          · exact Or.inl (by simp [depsolveLoop, hm, hnone])
          · rcases ihs (fun x hx => hsub x (by simp [hx])) acc2 hacc2 with
              hnone' | ⟨out, hl', hout⟩
            · exact Or.inl (by simp [depsolveLoop, hm, hrec, hnone'])
            · exact Or.inr ⟨out, by simp [depsolveLoop, hm, hrec, hl'], hout⟩
      rcases hloop ds (fun x hx => hx) deps hdeps with hnone | ⟨out, hlp, hout⟩
      · exact Or.inl (by simp [depsolveAux, hl, hnone])
      · have hw := warnAll_ok VOK hout
        exact Or.inr ⟨out, by simp [depsolveAux, hl, hlp, hw], hout⟩

/-- Under a self-contained, comparison-safe catalog, resolution of a name
from which a dependency cycle is reachable runs out of any amount of
fuel: the recursion never terminates. -/
theorem depsolveAux_cycle_none {cat : Catalog} (SC : SelfContainedCat cat)
    (VOK : VersionsOKCat cat) :
    ∀ (fuel : Nat) (n : String) (deps : List JenkinsPlugin),
    CycleReachable cat n → (∀ p ∈ deps, p.version ∈ versionsOf cat) →
    depsolveAux cat fuel n deps = none := by
  intro fuel
  induction fuel with
  | zero => intro n deps _ _; rfl
  | succ fuel ih =>
    intro n deps hcyc hdeps
    obtain ⟨ds, hl⟩ := cycleReachable_lookup hcyc
    obtain ⟨dstar, hdstar, hcstar⟩ := cycleReachable_step hcyc hl
    obtain ⟨kv, hkv, hkvn, hkvd⟩ := lookupEntry_exists_kv hl
    have hds_names : ∀ d ∈ ds, lookupEntry d.name cat ≠ none := by
      intro d hd
      exact SC kv hkv d (hkvd ▸ hd)
    have hds_vers : ∀ d ∈ ds, d.version ∈ versionsOf cat := by
      intro d hd
      exact versionsOf_dep hkv (hkvd ▸ hd)
    have hloop : ∀ sfx, (∀ d ∈ sfx, d ∈ ds) →
        (∃ d ∈ sfx, CycleReachable cat d.name) →
        ∀ acc, (∀ p ∈ acc, p.version ∈ versionsOf cat) →
        depsolveLoop (depsolveAux cat fuel) sfx acc = none := by
      intro sfx
      induction sfx with
      | nil =>
        intro _ hex acc _
        obtain ⟨d, hd, _⟩ := hex
        cases hd
      | cons d sfx' ihs =>
        intro hsub hex acc hacc
        obtain ⟨acc1, hm, hacc1⟩ :=
          mergeDep_ok_exists VOK hacc (hds_vers d (hsub d (by simp)))
        by_cases hd : CycleReachable cat d.name
        · have hnone := ih d.name acc1 hd hacc1
          simp [depsolveLoop, hm, hnone]
        · have hex' : ∃ d' ∈ sfx', CycleReachable cat d'.name := by
            obtain ⟨d', hd', hc'⟩ := hex
            rcases List.mem_cons.mp hd' with rfl | hd'
            · exact absurd hc' hd
            · exact ⟨d', hd', hc'⟩
          rcases depsolveAux_good SC VOK fuel d.name acc1
              (hds_names d (hsub d (by simp))) hacc1 with hnone | ⟨acc2, hrec, hacc2⟩
          · simp [depsolveLoop, hm, hnone]
          · have := ihs (fun x hx => hsub x (by simp [hx])) hex' acc2 hacc2
            simp [depsolveLoop, hm, hrec, this]
    have := hloop ds (fun x hx => hx) ⟨dstar, hdstar, hcstar⟩ deps hdeps
    simp [depsolveAux, hl, this]

/-! ## Termination on acyclic catalogs -/

theorem dbound_mono {cat : Catalog} : ∀ {k : Nat} {n : String}, DBound cat k n →
    ∀ {k' : Nat}, k ≤ k' → DBound cat k' n := by
  intro k n h
  induction h with
  | mk k n hsub ih =>
    intro k' hk'
    obtain ⟨k'', rfl⟩ : ∃ k'', k' = k'' + 1 := ⟨k' - 1, by omega⟩
    exact DBound.mk k'' n (fun ds hds d hd => ih ds hds d hd (by omega))

theorem dbound_list_max {cat : Catalog} : ∀ {ds : List JenkinsPlugin},
    (∀ d ∈ ds, ∃ k, DBound cat k d.name) →
    ∃ K, ∀ d ∈ ds, DBound cat K d.name := by
  intro ds
  induction ds with
  | nil => intro _; exact ⟨0, by simp⟩
  | cons d rest ih =>
    intro h
    obtain ⟨kd, hkd⟩ := h d (by simp)
    obtain ⟨K, hK⟩ := ih (fun x hx => h x (by simp [hx]))
    refine ⟨max kd K, ?_⟩
    intro x hx
    rcases List.mem_cons.mp hx with rfl | hx
    · exact dbound_mono hkd (le_max_left _ _)
    · exact dbound_mono (hK x hx) (le_max_right _ _)

/-- With fuel covering the depth bound, the worker always answers. -/
theorem dbound_aux_some {cat : Catalog} : ∀ {k : Nat} {n : String}, DBound cat k n →
    ∀ deps, ∃ r, depsolveAux cat k n deps = some r := by
  intro k n h
  induction h with
  | mk k n hsub ih =>
    intro deps
    cases hlk : lookupEntry n cat with
    | none => exact ⟨.error (.notFound n), by simp [depsolveAux, hlk]⟩
    | some ds =>
      have hloop : ∀ sfx, (∀ d ∈ sfx, d ∈ ds) → ∀ acc,
          ∃ r, depsolveLoop (depsolveAux cat k) sfx acc = some r := by
        intro sfx
        induction sfx with
        | nil => intro _ acc; exact ⟨.ok acc, rfl⟩
        | cons d sfx' ihs =>
          intro hsub' acc
          cases hm : mergeDep acc d with
          | error e => exact ⟨.error e, by simp [depsolveLoop, hm]⟩
          | ok acc1 =>
            obtain ⟨r1, hr1⟩ := ih ds hlk d (hsub' d (by simp)) acc1
            cases r1 with
            | error e => exact ⟨.error e, by simp [depsolveLoop, hm, hr1]⟩
            | ok acc2 =>
              obtain ⟨r2, hr2⟩ := ihs (fun x hx => hsub' x (by simp [hx])) acc2
              exact ⟨r2, by simp [depsolveLoop, hm, hr1, hr2]⟩
      obtain ⟨r, hr⟩ := hloop ds (fun x hx => hx) deps
      cases r with
      | error e => exact ⟨.error e, by simp [depsolveAux, hlk, hr]⟩
      | ok out =>
        cases hw : warnAll cat out with
        | error e => exact ⟨.error e, by simp [depsolveAux, hlk, hr, hw]⟩
        | ok u => exact ⟨.ok out, by simp [depsolveAux, hlk, hr, hw]⟩

/-- On a finite acyclic catalog every name is accessible along the
dependency-edge relation: an inaccessible name would yield an infinite
chain, which by the pigeonhole principle would revisit a name and close
a cycle. -/
theorem acyclic_acc {cat : Catalog} (hac : AcyclicCat cat) :
    ∀ n, Acc (fun a b => depStep cat b a) n := by
  by_contra hcon
  push_neg at hcon
  obtain ⟨n0, hn0⟩ := hcon
  have hsucc : ∀ n, ¬ Acc (fun a b => depStep cat b a) n →
      ∃ b, depStep cat n b ∧ ¬ Acc (fun a b => depStep cat b a) b := by
    intro n hn
    by_contra hb
    push_neg at hb
    exact hn (Acc.intro n (fun y hy => hb y hy))
  let f : Nat → {x : String // ¬ Acc (fun a b => depStep cat b a) x} :=
    Nat.rec ⟨n0, hn0⟩ (fun _ p =>
      ⟨(hsucc p.1 p.2).choose, (hsucc p.1 p.2).choose_spec.2⟩)
  have hstep : ∀ i, depStep cat (f i).1 (f (i + 1)).1 :=
    fun i => (hsucc (f i).1 (f i).2).choose_spec.1
  have hmem : ∀ i, (f i).1 ∈ cat.map (fun kv => kv.1.name) := by
    intro i
    obtain ⟨ds, hlk, _⟩ := hstep i
    exact lookupEntry_mem_names hlk
  have htg : ∀ a b, a < b →
      Relation.TransGen (depStep cat) (f a).1 (f b).1 := by
    intro a b hab
    induction b with
    | zero => omega
    | succ b ihb =>
      rcases Nat.lt_succ_iff_lt_or_eq.mp hab with hab' | rfl
      · exact (ihb hab').tail (hstep b)
      · exact Relation.TransGen.single (hstep a)
  have hmaps : ∀ i ∈ Finset.range ((cat.map (fun kv => kv.1.name)).length + 1),
      (fun j => (f j).1) i ∈ (cat.map (fun kv => kv.1.name)).toFinset := by
    intro i _
    exact List.mem_toFinset.mpr (hmem i)
  have hcard : (cat.map (fun kv => kv.1.name)).toFinset.card <
      (Finset.range ((cat.map (fun kv => kv.1.name)).length + 1)).card := by
    rw [Finset.card_range]
    exact Nat.lt_succ_of_le (cat.map (fun kv => kv.1.name)).toFinset_card_le
  obtain ⟨i, hi, j, hj, hne, heq⟩ :=
    Finset.exists_ne_map_eq_of_card_lt_of_maps_to hcard hmaps
  rcases Nat.lt_or_ge i j with hij | hij
  · exact hac (f i).1 (heq ▸ htg i j hij)
  · have hij' : j < i := by omega
    exact hac (f j).1 (heq ▸ htg j i hij')

theorem acc_dbound {cat : Catalog} : ∀ {n : String},
    Acc (fun a b => depStep cat b a) n → ∃ k, DBound cat k n := by
  intro n h
  induction h with
  | intro n hacc ih =>
    cases hlk : lookupEntry n cat with
    | none =>
      refine ⟨1, DBound.mk 0 n ?_⟩
      intro ds h'
      rw [hlk] at h'
      cases h'
    | some ds =>
      have hall : ∀ d ∈ ds, ∃ k, DBound cat k d.name :=
        fun d hd => ih d.name ⟨ds, hlk, d, hd, rfl⟩
      obtain ⟨K, hK⟩ := dbound_list_max hall
      refine ⟨K + 1, DBound.mk K n ?_⟩
      intro ds' h' d hd
      have : ds' = ds := lookupEntry_det h' hlk
      subst this
      exact hK d hd

/-- With an exactly named key present, the dict membership guard passes. -/
theorem dictHasName_of_mem {cat : Catalog} {kv : JenkinsPlugin × List JenkinsPlugin}
    (hkv : kv ∈ cat) {n : String} (hn : kv.1.name = n) : dictHasName n cat = true := by
  unfold dictHasName
  rw [List.any_eq_true]
  refine ⟨kv, hkv, ?_⟩
  rw [Bool.and_eq_true, beq_iff_eq]
  constructor
  · unfold jpHash
    rw [hn]
  · rw [jpEqB_iff]
    show lowerName kv.1.name = lowerName n
    rw [hn]

/-- The `get_latest_version` scan answers without raising when the probe
name has a key and all key versions are pairwise comparable. -/
theorem glvScan_good {cat : Catalog} (VOK : VersionsOKCat cat) {t : String} :
    ∀ (keys : List JenkinsPlugin) (cur : Option JenkinsPlugin),
    (∀ k ∈ keys, k ∈ catKeys cat) →
    (∀ c, cur = some c → c ∈ catKeys cat) →
    ((∃ k ∈ keys, k.name = t) ∨ cur ≠ none) →
    ∃ l, glvScan t keys cur = .ok (some l) ∧ l ∈ catKeys cat := by
  intro keys
  induction keys with
  | nil =>
    intro cur _ hcur hex
    rcases hex with ⟨k, hk, _⟩ | hne
    · cases hk
    · cases cur with
      | none => exact absurd rfl hne
      | some c => exact ⟨c, rfl, hcur c rfl⟩
  | cons p ps ih =>
    intro cur hkeys hcur hex
    cases cur with
    | none =>
      simp only [glvScan]
      by_cases hp : p.name = t
      · rw [if_pos hp]
        exact ih (some p) (fun k hk => hkeys k (by simp [hk]))
          (fun c hc => by cases hc; exact hkeys p (by simp)) (Or.inr (by simp))
      · rw [if_neg hp]
        refine ih none (fun k hk => hkeys k (by simp [hk])) hcur ?_
        rcases hex with ⟨k, hk, hkn⟩ | hne
        · rcases List.mem_cons.mp hk with rfl | hk
          · exact absurd hkn hp
          · exact Or.inl ⟨k, hk, hkn⟩
        · exact absurd rfl hne
    | some c =>
      simp only [glvScan]
      by_cases hp : p.name = t
      · rw [if_pos hp]
        obtain ⟨o, ho⟩ := verCmp_ok_of_vok VOK
          (versionsOf_catKey (hkeys p (by simp)))
          (versionsOf_catKey (hcur c rfl))
        have hg : jpGt p c = .ok (o == .gt) := by
          unfold jpGt
          rw [ho]
          rfl
        rw [hg]
        cases hob : (o == Ordering.gt) with
        | true =>
          exact ih (some p) (fun k hk => hkeys k (by simp [hk]))
            (fun c' hc' => by cases hc'; exact hkeys p (by simp)) (Or.inr (by simp))
        | false =>
          exact ih (some c) (fun k hk => hkeys k (by simp [hk]))
            (fun c' hc' => by cases hc'; exact hcur c rfl) (Or.inr (by simp))
      · rw [if_neg hp]
        exact ih (some c) (fun k hk => hkeys k (by simp [hk])) hcur (Or.inr (by simp))

/-! ## The dependency graph of the scenario catalog `catA` is acyclic -/

theorem catA_step {a b : String} (h : depStep catA a b) : a = "B" ∧ b = "A" := by
  obtain ⟨ds, hlk, d, hd, rfl⟩ := h
  simp only [catA, lookupEntry] at hlk
  by_cases h1 : ("B" : String) = a
  · rw [if_pos h1] at hlk
    have hds : ds = [⟨"A", "1"⟩] := (Option.some_injective _ hlk).symm
    subst hds
    simp at hd
    subst hd
    exact ⟨h1.symm, rfl⟩
  · rw [if_neg h1] at hlk
    by_cases h2 : ("A" : String) = a
    · rw [if_pos h2] at hlk
      have hds : ds = [] := (Option.some_injective _ hlk).symm
      subst hds
      cases hd
    · rw [if_neg h2] at hlk
      cases hlk

theorem acyclic_catA : AcyclicCat catA := by
  intro n htg
  have hlast : ∀ x y, Relation.TransGen (depStep catA) x y → y = "A" := by
    intro x y h
    induction h with
    | single h1 => exact (catA_step h1).2
    | tail _ h2 _ => exact (catA_step h2).2
  obtain ⟨b, hstep, _⟩ := Relation.TransGen.head'_iff.mp htg
  have h1 : n = "B" := (catA_step hstep).1
  have h2 : n = "A" := hlast n n htg
  rw [h1] at h2
  exact absurd h2 (by decide)

/-- The catalog key named `t` makes `get_latest_version` answer
`.ok (some l)` for some catalog key `l`, under pairwise-comparable
versions. -/
theorem get_latest_version_good {cat : Catalog} (VOK : VersionsOKCat cat)
    {kv : JenkinsPlugin × List JenkinsPlugin} (hkv : kv ∈ cat) {t : String}
    (hn : kv.1.name = t) :
    ∃ l, get_latest_version t cat = .ok (some l) ∧ l ∈ catKeys cat := by
  obtain ⟨l, hscan, hmem⟩ := glvScan_good VOK (catKeys cat) none
    (fun k hk => hk) (fun c hc => by cases hc)
    (Or.inl ⟨kv.1, mem_catKeys_iff.mpr ⟨kv, hkv, rfl⟩, hn⟩)
  refine ⟨l, ?_, hmem⟩
  unfold get_latest_version
  rw [if_pos (dictHasName_of_mem hkv hn), hscan]

/-- C7 counterexample: a dependency cycle (`C -> C`) is reachable from
the target `T`, yet `depsolve` terminates, because resolution aborts
with `PluginNotFound` on the catalog-missing dependency `X` before the
cycle is entered. -/
theorem depsolve_cycle_terminates_counterexample :
    CycleReachable catT "T" ∧ depsolve catT 5 "T" = some (.error (.notFound "X")) := by
  constructor
  · exact ⟨"C",
      Relation.ReflTransGen.single
        ⟨[⟨"X", "1"⟩, ⟨"C", "1"⟩], rfl, ⟨"C", "1"⟩, by simp, rfl⟩,
      Relation.TransGen.single ⟨[⟨"C", "1"⟩], rfl, ⟨"C", "1"⟩, by simp, rfl⟩⟩
  · decide

/-- C7 (amended): `depsolve` terminates (possibly with an error) for
every name of an acyclic catalog; and it performs no cycle detection:
when a dependency cycle is reachable from a target that is in the
catalog, and resolution cannot abort early — every declared dependency
name has a catalog entry and all catalog version strings are pairwise
comparable — `depsolve` fails to terminate at every fuel bound. -/
theorem depsolve_termination_behaviour :
    (∀ cat : Catalog, AcyclicCat cat → ∀ n, n ∈ cat.map (fun kv => kv.1.name) →
      ∃ fuel r, depsolve cat fuel n = some r) ∧
    (∀ (cat : Catalog) (t : String), SelfContainedCat cat → VersionsOKCat cat →
      (∃ kv ∈ cat, kv.1.name = t) → CycleReachable cat t →
      ∀ fuel, depsolve cat fuel t = none) := by
  constructor
  · intro cat hac n hn
    cases hg : get_latest_version n cat with
    | error e => exact ⟨0, .error e, by simp [depsolve, hg]⟩
    | ok latest =>
      cases latest with
      | none =>
        cases hlk : lookupEntry n cat with
        | none => exact ⟨0, .error (.notFound n), by simp [depsolve, hg, hlk]⟩
        | some ds => exact ⟨0, .error .attrError, by simp [depsolve, hg, hlk]⟩
      | some l =>
        obtain ⟨k, hk⟩ := acc_dbound (acyclic_acc hac n)
        obtain ⟨r, hr⟩ := dbound_aux_some hk [l]
        exact ⟨k, r, by simp [depsolve, hg, hr]⟩
  · intro cat t SC VOK hpres hcyc fuel
    obtain ⟨kv, hkv, hkvn⟩ := hpres
    obtain ⟨l, hglv, hlmem⟩ := get_latest_version_good VOK hkv hkvn
    have hdeps : ∀ p ∈ [l], p.version ∈ versionsOf cat := by
      intro p hp
      simp at hp
      subst hp
      exact versionsOf_catKey hlmem
    have haux := depsolveAux_cycle_none SC VOK fuel t [l] hcyc hdeps
    simp [depsolve, hglv, haux]

/-- C7 witness: the two halves applied to concrete catalogs — the
acyclic scenario catalog resolves, and the self-contained one-cycle
catalog exhausts any fuel. -/
theorem depsolve_termination_behaviour_witness :
    (∃ fuel r, depsolve catA fuel "B" = some r) ∧ depsolve catC 50 "C" = none := by
  constructor
  · exact depsolve_termination_behaviour.1 catA acyclic_catA "B" (by decide)
  · exact depsolve_termination_behaviour.2 catC "C"
      (by unfold SelfContainedCat; decide)
      (by unfold VersionsOKCat; decide)
      ⟨(⟨"C", "1"⟩, [⟨"C", "1"⟩]), by simp [catC], rfl⟩
      ⟨"C", Relation.ReflTransGen.refl,
        Relation.TransGen.single ⟨[⟨"C", "1"⟩], rfl, ⟨"C", "1"⟩, by simp, rfl⟩⟩ 50

/-- C1 counterexample: resolving `B` against the §8 scenario catalog
`{A: v2 deps [], B: v1 deps [A@v1]}` does not return `[B@1, A@2]` — the
dependency `A` is not raised to the catalog's latest version. -/
theorem depsolve_scenario_counterexample :
    depsolve catA 5 "B" ≠ some (.ok [⟨"B", "1"⟩, ⟨"A", "2"⟩]) := by decide

/-- C1 (amended): resolving `B` yields the closure `[B@1, A@1]`: the
recursive calls share the accumulator and never re-seed a dependency
from `catalog.lookupLatest`, so `A` stays at its dependency-declared
version `1`. -/
theorem depsolve_scenario_declared_version :
    depsolve catA 5 "B" = some (.ok [⟨"B", "1"⟩, ⟨"A", "1"⟩]) := by decide

/-- C4 counterexample: running `update_plugin_lists` twice in all-entries
mode against the unchanged scenario catalog does not reproduce the first
run's contents: the first run writes `A==1, B==1` into the default list,
the second run writes `A==2, B==1`. -/
theorem reconcile_not_idempotent_counterexample :
    update_plugin_lists catA 5 "B\n" "" false false none =
      some (.ok ⟨[⟨"B", "1"⟩, ⟨"A", "1"⟩], [], "A==1\nB==1\n", "", [], []⟩) ∧
    update_plugin_lists catA 5 "A==1\nB==1\n" "" false false none =
      some (.ok ⟨[⟨"A", "2"⟩, ⟨"B", "1"⟩], [], "A==2\nB==1\n", "", [], []⟩) ∧
    ("A==2\nB==1\n" : String) ≠ "A==1\nB==1\n" := by
  refine ⟨by decide, by decide, by decide⟩

/-- C4 (amended): the reconcile operation is not idempotent on list
contents: a second all-entries run raises entries that first entered the
list as dependencies to the catalog's latest version (first run
`A==1, B==1`, second run `A==2, B==1` on the scenario catalog); contents
are stable from the second run on — a third run reproduces the second
run's contents unchanged. -/
theorem reconcile_second_run_drift_then_stable :
    update_plugin_lists catA 5 "B\n" "" false false none =
      some (.ok ⟨[⟨"B", "1"⟩, ⟨"A", "1"⟩], [], "A==1\nB==1\n", "", [], []⟩) ∧
    update_plugin_lists catA 5 "A==1\nB==1\n" "" false false none =
      some (.ok ⟨[⟨"A", "2"⟩, ⟨"B", "1"⟩], [], "A==2\nB==1\n", "", [], []⟩) ∧
    update_plugin_lists catA 5 "A==2\nB==1\n" "" false false none =
      some (.ok ⟨[⟨"A", "2"⟩, ⟨"B", "1"⟩], [], "A==2\nB==1\n", "", [], []⟩) := by
  refine ⟨by decide, by decide, by decide⟩

/-- C9: `JenkinsPlugin.__eq__` lower-cases the names while `__hash__`
digests the exact-case bytes, so two plugins can be equal yet hash
differently — and a hash-probing (dict-style) container then misses the
equal key. -/
theorem jp_eq_hash_inconsistent :
    ∃ a b : JenkinsPlugin, jpEqB a b = true ∧ jpHash a ≠ jpHash b ∧
      dictHasName a.name [(b, [])] = false := by
  refine ⟨⟨"Foo", "1"⟩, ⟨"foo", "1"⟩, by decide, by decide, by decide⟩

/-- C10 counterexample: with the catalog containing the probe name only
in a different letter case, `get_latest_version` raises `PluginNotFound`
rather than returning `None`: the dict membership guard is hash-based
and fails before the case-insensitive `__eq__` is ever consulted. -/
theorem glv_case_mismatch_counterexample :
    (∃ kv ∈ catFoo, lowerName kv.1.name = lowerName "foo") ∧
    get_latest_version "foo" catFoo = .error (.notFound "foo") := by
  constructor
  · exact ⟨(⟨"Foo", "2"⟩, []), by simp [catFoo], by decide⟩
  · decide

/-- C10 (amended): whenever no catalog key's exact-case name has the same
md5 digest as the probe name — in particular for a name present only in
a different letter case — the hash-based membership guard fails and
`get_latest_version` raises `PluginNotFound`; the case-insensitive
equality never comes into play, so catalog lookup is effectively
exact-case. -/
theorem glv_hash_guard (cat : Catalog) (name : String)
    (h : ∀ kv ∈ cat, md5Int (strBytes kv.1.name) ≠ md5Int (strBytes name)) :
    get_latest_version name cat = .error (.notFound name) := by
  have hd : dictHasName name cat = false := by
    unfold dictHasName
    rw [List.any_eq_false]
    intro kv hkv hcon
    rw [Bool.and_eq_true, beq_iff_eq] at hcon
    exact h kv hkv hcon.1
  unfold get_latest_version
  simp [hd]

/-- C10 witness: the amended theorem applied to the concrete mixed-case
catalog. -/
theorem glv_hash_guard_witness :
    (∀ kv ∈ catFoo, md5Int (strBytes kv.1.name) ≠ md5Int (strBytes "foo")) ∧
    get_latest_version "foo" catFoo = .error (.notFound "foo") :=
  ⟨by decide, glv_hash_guard catFoo "foo" (by decide)⟩

theorem pyCompare_append_lt : ∀ (as : List VComp) (c : VComp) (cs : List VComp),
    pyCompare as (as ++ c :: cs) = some .lt := by
  intro as c cs
  induction as with
  | nil => cases c <;> rfl
  | cons x xs ih =>
    cases x with
    | num m => simp [pyCompare, ih]
    | str s => simp [pyCompare, lexLt_irrefl, ih]

/-- C3 counterexample: on versions with letters embedded in a dotted
segment the code's `LooseVersion` order contradicts the claimed
dot-segment comparison: the code has `1.2a < 1.10` (it splits `2a` into
the number 2 and the letter run `a`, and 2 < 10), while comparing the
dot-separated segments `2a` and `10` lexically as the claim describes
gives `1.10 < 1.2a`. -/
theorem version_cmp_spec_counterexample :
    jpLt ⟨"p", "1.2a"⟩ ⟨"p", "1.10"⟩ = .ok true ∧
    specVerLt "1.2a" "1.10" = false ∧
    specVerLt "1.10" "1.2a" = true := by
  refine ⟨by decide, by decide, by decide⟩

/-- C3 (amended): version comparison delegates to `LooseVersion`, which
tokenises the version string into maximal runs of digits (compared
numerically), of lowercase letters, and of other characters, dropping
dots — not into plain dot-separated segments.  Purely numeric dotted
versions compare numerically (`2.9 < 2.10`, and in general single
numeric tokens compare as numbers); a version whose token list strictly
extends another's compares greater; and comparing a numeric token
against a letter token raises `TypeError` instead of falling back to a
lexical comparison. -/
theorem version_cmp_loose_semantics :
    jpLt ⟨"p", "2.9"⟩ ⟨"p", "2.10"⟩ = .ok true ∧
    (∀ a b : JenkinsPlugin, ∀ c cs, a.version ≠ "" → b.version ≠ "" →
      looseTokens b.version = looseTokens a.version ++ c :: cs →
      jpLt a b = .ok true) ∧
    (∀ a b : JenkinsPlugin, ∀ m n : Nat, a.version ≠ "" → b.version ≠ "" →
      looseTokens a.version = [.num m] → looseTokens b.version = [.num n] →
      jpLt a b = .ok (decide (m < n))) ∧
    jpLt ⟨"p", "1.0"⟩ ⟨"p", "1.a"⟩ = .error .typeError := by
  refine ⟨by decide, ?_, ?_, by decide⟩
  · intro a b c cs ha hb htok
    unfold jpLt verCmp
    rw [if_neg (by simp [ha, hb]), htok, pyCompare_append_lt]
    rfl
  · intro a b m n ha hb hta htb
    unfold jpLt verCmp
    rw [if_neg (by simp [ha, hb]), hta, htb]
    rcases Nat.lt_trichotomy m n with hmn | hmn | hmn
    · simp [pyCompare, hmn, Except.map]
      decide
    · subst hmn
      simp [pyCompare, lt_irrefl, Except.map]
      decide
    · simp [pyCompare, hmn, Nat.lt_asymm hmn, Except.map, Nat.not_lt_of_gt hmn]
      decide

/-- C3 witness: the general clauses of the amended statement applied to
concrete versions. -/
theorem version_cmp_loose_semantics_witness :
    jpLt ⟨"p", "1"⟩ ⟨"p", "1.1"⟩ = .ok true ∧
    jpLt ⟨"p", "3"⟩ ⟨"p", "7"⟩ = .ok (decide (3 < 7)) :=
  ⟨version_cmp_loose_semantics.2.1 ⟨"p", "1"⟩ ⟨"p", "1.1"⟩ (.num 1) []
      (by decide) (by decide) (by decide),
    version_cmp_loose_semantics.2.2.1 ⟨"p", "3"⟩ ⟨"p", "7"⟩ 3 7
      (by decide) (by decide) (by decide) (by decide)⟩

theorem asString_eq_empty_iff {l : List Char} : l.asString = "" ↔ l = [] := by
  constructor
  · intro h
    have h2 : (l.asString).data = ("" : String).data := by rw [h]
    exact h2
  · intro h
    subst h
    rfl

theorem splitEE_ne_nil : ∀ (cs : List Char), splitEE cs ≠ [] := by
  intro cs
  induction cs using splitEE.induct with
  | case1 => simp [splitEE.eq_1]
  | case2 rest ih => simp [splitEE.eq_2]
  | case3 c rest h hnil ih => exact absurd hnil ih
  | case4 c rest h p ps hps ih =>
    rw [splitEE.eq_3 c rest h, hps]
    simp

/-- C8 counterexample: a line with two `==` separators fails to parse as
`name==version` and is not a bare name, yet it is not skipped — the
whole stripped line is kept as the entry's name (with version `"0"`),
`==` characters and all. -/
theorem parse_multi_eq_kept_counterexample :
    parseLine "a==b==c".data = some ⟨"a==b==c", "0"⟩ ∧
    parseLine "a==b==c".data ≠ none := by
  refine ⟨by decide, by decide⟩

/-- C8 (amended): during list load, a line is parsed by stripping it and
splitting on `==`: a blank line is skipped; a split into exactly two
parts yields `name==version` (skipped only when the name part is empty,
as in `==v`); any other arity — a bare name, or a line with two or more
`==` separators — is kept whole as a bare-name entry with version `"0"`
(so `a==b==c` is retained under the name `a==b==c`), and only entries
with blank names are ever skipped. -/
theorem parse_line_behaviour :
    (∀ line : List Char, stripChars line = [] → parseLine line = none) ∧
    (∀ line n v, splitEE (stripChars line) = [n, v] →
      parseLine line = if n = [] then none else some ⟨n.asString, v.asString⟩) ∧
    (∀ line : List Char, (splitEE (stripChars line)).length ≠ 2 →
      parseLine line =
        if stripChars line = [] then none
        else some ⟨(stripChars line).asString, "0"⟩) ∧
    parseLine "a==b==c".data = some ⟨"a==b==c", "0"⟩ ∧
    parseLine "==v".data = none := by
  refine ⟨?_, ?_, ?_, by decide, by decide⟩
  · intro line h
    have h0 : ([] : List Char).asString = "" := rfl
    simp [parseLine, h, splitEE.eq_1, h0]
  · intro line n v h
    simp only [parseLine]
    rw [h]
    by_cases hn : n = []
    · subst hn
      simp [asString_eq_empty_iff]
    · have hne : n.asString ≠ "" := fun hc => hn (asString_eq_empty_iff.mp hc)
      simp [hne, hn]
  · intro line h
    simp only [parseLine]
    cases hs : splitEE (stripChars line) with
    | nil => exact absurd hs (splitEE_ne_nil _)
    | cons a rest =>
      cases rest with
      | nil =>
        by_cases ht : stripChars line = []
        · have h0 : ([] : List Char).asString = "" := rfl
          rw [ht]
          simp [h0]
        · have hne : (stripChars line).asString ≠ "" :=
            fun hc => ht (asString_eq_empty_iff.mp hc)
          simp [hne, ht]
      | cons b rest2 =>
        cases rest2 with
        | nil => exact absurd (by rw [hs]; rfl) h
        | cons c rest3 =>
          by_cases ht : stripChars line = []
          · rw [ht] at hs
            rw [splitEE.eq_1] at hs
            cases hs
          · have hne : (stripChars line).asString ≠ "" :=
              fun hc => ht (asString_eq_empty_iff.mp hc)
            simp [hne, ht]

/-- C8 witness: the general clauses applied to a two-part line and a
bare-name line. -/
theorem parse_line_behaviour_witness :
    parseLine "x==1.2".data = (if (['x'] : List Char) = [] then none
      else some ⟨['x'].asString, ['1', '.', '2'].asString⟩) ∧
    parseLine "plain".data = (if stripChars "plain".data = [] then none
      else some ⟨(stripChars "plain".data).asString, "0"⟩) :=
  ⟨parse_line_behaviour.2.1 "x==1.2".data ['x'] ['1', '.', '2'] (by decide),
    parse_line_behaviour.2.2.1 "plain".data (by decide)⟩

/-! ## Refinement-dict lemmas -/

theorem refineIns_src : ∀ {acc : List (String × JenkinsPlugin)} {p : JenkinsPlugin}
    {out : List (String × JenkinsPlugin)}, refineIns acc p = .ok out →
    ∀ kv ∈ out, kv ∈ acc ∨ (kv.1 = p.name ∧ kv.2 = p) := by
  intro acc
  induction acc with
  | nil =>
    intro p out h kv hkv
    simp [refineIns] at h
    subst h
    simp at hkv
    subst hkv
    exact Or.inr ⟨rfl, rfl⟩
  | cons e rest ih =>
    intro p out h kv hkv
    by_cases hk : e.1 = p.name
    · rw [refineIns, if_pos hk] at h
      cases hg : jpLt e.2 p with
      | error err => rw [hg] at h; cases h
      | ok b =>
        rw [hg] at h
        cases b
        · have : out = (e.1, e.2) :: rest := by
            simpa using h.symm
          subst this
          rcases List.mem_cons.mp hkv with rfl | hkv
          · exact Or.inl (by simp)
          · exact Or.inl (by simp [hkv])
        · have : out = (e.1, p) :: rest := by
            simpa using h.symm
          subst this
          rcases List.mem_cons.mp hkv with rfl | hkv
          · exact Or.inr ⟨hk, rfl⟩
          · exact Or.inl (by simp [hkv])
    · rw [refineIns, if_neg hk] at h
      cases hrec : refineIns rest p with
      | error err => rw [hrec] at h; cases h
      | ok out' =>
        rw [hrec] at h
        have : out = e :: out' := by simpa [Except.map] using h.symm
        subst this
        rcases List.mem_cons.mp hkv with rfl | hkv
        · exact Or.inl (by simp)
        · rcases ih hrec kv hkv with h1 | h1
          · exact Or.inl (by simp [h1])
          · exact Or.inr h1

theorem refineIns_keys : ∀ {acc : List (String × JenkinsPlugin)} {p : JenkinsPlugin}
    {out : List (String × JenkinsPlugin)}, refineIns acc p = .ok out →
    (∃ kv ∈ out, kv.1 = p.name) ∧ ∀ kv ∈ acc, ∃ kv' ∈ out, kv'.1 = kv.1 := by
  intro acc
  induction acc with
  | nil =>
    intro p out h
    simp [refineIns] at h
    subst h
    exact ⟨⟨(p.name, p), by simp, rfl⟩, by simp⟩
  | cons e rest ih =>
    intro p out h
    by_cases hk : e.1 = p.name
    · rw [refineIns, if_pos hk] at h
      cases hg : jpLt e.2 p with
      | error err => rw [hg] at h; cases h
      | ok b =>
        rw [hg] at h
        cases b
        · have : out = (e.1, e.2) :: rest := by simpa using h.symm
          subst this
          refine ⟨⟨(e.1, e.2), by simp, hk⟩, ?_⟩
          intro kv hkv
          rcases List.mem_cons.mp hkv with hh | hkv
          · exact ⟨(e.1, e.2), by simp, by rw [hh]⟩
          · exact ⟨kv, by simp [hkv], rfl⟩
        · have : out = (e.1, p) :: rest := by simpa using h.symm
          subst this
          refine ⟨⟨(e.1, p), by simp, hk⟩, ?_⟩
          intro kv hkv
          rcases List.mem_cons.mp hkv with hh | hkv
          · exact ⟨(e.1, p), by simp, by rw [hh]⟩
          · exact ⟨kv, by simp [hkv], rfl⟩
    · rw [refineIns, if_neg hk] at h
      cases hrec : refineIns rest p with
      | error err => rw [hrec] at h; cases h
      | ok out' =>
        rw [hrec] at h
        have : out = e :: out' := by simpa [Except.map] using h.symm
        subst this
        obtain ⟨⟨kvp, hkvp, hkvp1⟩, hall⟩ := ih hrec
        refine ⟨⟨kvp, by simp [hkvp], hkvp1⟩, ?_⟩
        intro kv hkv
        rcases List.mem_cons.mp hkv with rfl | hkv
        · exact ⟨kv, by simp, rfl⟩
        · obtain ⟨kv', hkv', hkv1⟩ := hall kv hkv
          exact ⟨kv', by simp [hkv'], hkv1⟩

theorem refineGo_spec : ∀ {seen : List String} {l : List JenkinsPlugin}
    {acc out : List (String × JenkinsPlugin)}, refineGo seen l acc = .ok out →
    (∀ kv ∈ out, kv ∈ acc ∨ ∃ q ∈ l, kv.1 = q.name ∧ kv.2 = q ∧ seen.contains q.name = false) ∧
    (∀ kv ∈ acc, ∃ kv' ∈ out, kv'.1 = kv.1) ∧
    (∀ p ∈ l, seen.contains p.name = false → ∃ kv ∈ out, kv.1 = p.name) := by
  intro seen l
  induction l with
  | nil =>
    intro acc out h
    simp [refineGo] at h
    subst h
    exact ⟨fun kv hkv => Or.inl hkv, fun kv hkv => ⟨kv, hkv, rfl⟩, by simp⟩
  | cons p ps ih =>
    intro acc out h
    by_cases hseen : seen.contains p.name = true
    · rw [refineGo, if_pos hseen] at h
      obtain ⟨h1, h2, h3⟩ := ih h
      refine ⟨?_, h2, ?_⟩
      · intro kv hkv
        rcases h1 kv hkv with ha | ⟨q, hq, hh⟩
        · exact Or.inl ha
        · exact Or.inr ⟨q, by simp [hq], hh⟩
      · intro q hq hqs
        rcases List.mem_cons.mp hq with rfl | hq
        · rw [hseen] at hqs; cases hqs
        · exact h3 q hq hqs
    · have hseen' : seen.contains p.name = false := Bool.eq_false_iff.mpr hseen
      rw [refineGo, if_neg hseen] at h
      cases hins : refineIns acc p with
      | error err => rw [hins] at h; cases h
      | ok acc1 =>
        rw [hins] at h
        obtain ⟨h1, h2, h3⟩ := ih h
        obtain ⟨⟨kvp, hkvp, hkvp1⟩, hallkeys⟩ := refineIns_keys hins
        refine ⟨?_, ?_, ?_⟩
        · intro kv hkv
          rcases h1 kv hkv with ha | ⟨q, hq, hh⟩
          · rcases refineIns_src hins kv ha with hb | ⟨hb1, hb2⟩
            · exact Or.inl hb
            · exact Or.inr ⟨p, by simp, hb1, hb2, hseen'⟩
          · exact Or.inr ⟨q, by simp [hq], hh⟩
        · intro kv hkv
          obtain ⟨kv', hkv', hke⟩ := hallkeys kv hkv
          obtain ⟨kv'', hkv'', hke'⟩ := h2 kv' hkv'
          exact ⟨kv'', hkv'', hke'.trans hke⟩
        · intro q hq hqs
          rcases List.mem_cons.mp hq with rfl | hq
          · obtain ⟨kv'', hkv'', hke'⟩ := h2 kvp hkvp
            exact ⟨kv'', hkv'', hke'.trans hkvp1⟩
          · exact h3 q hq hqs

/-- The keyed values of the refinement dict always carry their key as
their name. -/
theorem refineIns_keyname : ∀ {acc : List (String × JenkinsPlugin)} {p : JenkinsPlugin}
    {out : List (String × JenkinsPlugin)}, refineIns acc p = .ok out →
    (∀ kv ∈ acc, kv.2.name = kv.1) → ∀ kv ∈ out, kv.2.name = kv.1 := by
  intro acc p out h hacc kv hkv
  rcases refineIns_src h kv hkv with h1 | ⟨h1, h2⟩
  · exact hacc kv h1
  · rw [h2, h1]

theorem refineGo_keyname : ∀ {seen : List String} {l : List JenkinsPlugin}
    {acc out : List (String × JenkinsPlugin)}, refineGo seen l acc = .ok out →
    (∀ kv ∈ acc, kv.2.name = kv.1) → ∀ kv ∈ out, kv.2.name = kv.1 := by
  intro seen l acc out h hacc kv hkv
  rcases (refineGo_spec h).1 kv hkv with h1 | ⟨q, _, h1, h2, _⟩
  · exact hacc kv h1
  · rw [h2, h1]

/-- What comes out of `_refine_plugin_list`: entries of the input whose
names were not yet seen. -/
theorem refine_plugin_list_spec {l : List JenkinsPlugin} {seen : List String}
    {out : List JenkinsPlugin} (h : refine_plugin_list l seen = .ok out) :
    (∀ p ∈ out, p ∈ l ∧ seen.contains p.name = false) ∧
    (∀ p ∈ l, seen.contains p.name = false → ∃ q ∈ out, q.name = p.name) := by
  unfold refine_plugin_list at h
  cases hgo : refineGo seen l [] with
  | error err => rw [hgo] at h; cases h
  | ok acc =>
    rw [hgo] at h
    have hout : out = acc.map (fun kv => kv.2) := by simpa [Except.map] using h.symm
    subst hout
    obtain ⟨h1, _, h3⟩ := refineGo_spec hgo
    have hkn : ∀ kv ∈ acc, kv.2.name = kv.1 :=
      refineGo_keyname hgo (by simp)
    constructor
    · intro p hp
      obtain ⟨kv, hkv, hkv2⟩ := List.mem_map.mp hp
      rcases h1 kv hkv with ha | ⟨q, hq, _, hqv, hqs⟩
      · cases ha
      · subst hkv2
        rw [hqv]
        exact ⟨hq, hqs⟩
    · intro p hp hps
      obtain ⟨kv, hkv, hk1⟩ := h3 p hp hps
      refine ⟨kv.2, List.mem_map.mpr ⟨kv, hkv, rfl⟩, ?_⟩
      rw [hkn kv hkv, hk1]

theorem contains_false_not_mem {l : List String} {s : String}
    (h : l.contains s = false) : s ∉ l := by
  intro hs
  rw [List.contains, List.elem_eq_true_of_mem hs] at h
  cases h

theorem processFile_refined {cat : Catalog} {fuel : Nat} {contents : String}
    {io dr rm : Bool} {un : Option String} {seen : List String}
    {r : List JenkinsPlugin} {c : String} {rmv : List String}
    (h : processFile cat fuel contents io dr rm un seen = some (.ok (r, c, rmv))) :
    ∃ full, refine_plugin_list full seen = .ok r := by
  unfold processFile at h
  cases hp : process_plugin_list contents cat rm with
  | error e => rw [hp] at h; cases h
  | ok plrm =>
    obtain ⟨pl, removed⟩ := plrm
    simp only [hp] at h
    cases hs : solveStep cat fuel pl io un seen with
    | none => simp [hs] at h
    | some se =>
      cases se with
      | error e => simp [hs] at h
      | ok full =>
        simp only [hs] at h
        cases hr : refine_plugin_list full seen with
        | error e => simp [hr] at h
        | ok refined =>
          simp only [hr] at h
          have : refined = r := by
            simp at h
            exact h.1
          subst this
          exact ⟨full, hr⟩

/-- C5: within one reconciliation pass, a plugin name written to the
earlier-precedence list is never written to the later-precedence list:
the earlier list's names all enter the cumulative seen set before the
second list is refined, and the refine step drops every seen name. -/
theorem reconcile_precedence (cat : Catalog) (fuel : Nat) (c1 c2 : String)
    (dryRun removeMissing : Bool) (updateName : Option String) (res : UPLResult)
    (h : update_plugin_lists cat fuel c1 c2 dryRun removeMissing updateName =
      some (.ok res)) :
    ∀ p ∈ res.list2, p.name ∉ res.list1.map (fun q => q.name) := by
  unfold update_plugin_lists at h
  cases h1 : processFile cat fuel c1 false dryRun removeMissing updateName [] with
  | none => rw [h1] at h; cases h
  | some r1e =>
    cases r1e with
    | error e => simp [h1] at h
    | ok t1 =>
      obtain ⟨r1, nc1, rm1⟩ := t1
      simp only [h1] at h
      cases h2 : processFile cat fuel c2 true dryRun removeMissing updateName
          (r1.map (fun p => p.name)) with
      | none => simp [h2] at h
      | some r2e =>
        cases r2e with
        | error e => simp [h1, h2] at h
        | ok t2 =>
          obtain ⟨r2, nc2, rm2⟩ := t2
          simp only [h2] at h
          have hres : res = ⟨r1, r2, nc1, nc2, rm1, rm2⟩ := by
            simpa using h.symm
          subst hres
          obtain ⟨full2, hr2⟩ := processFile_refined h2
          intro p hp hmem
          have hspec := (refine_plugin_list_spec hr2).1 p hp
          exact contains_false_not_mem hspec.2 hmem

/-- C5 witness: a concrete pass in which the dependency `A` and the
entry `B` land in the default list and the optional list keeps only its
catalog-missing entry. -/
theorem reconcile_precedence_witness :
    update_plugin_lists catA 5 "B\n" "zzz==1\n" false false none =
      some (.ok ⟨[⟨"B", "1"⟩, ⟨"A", "1"⟩], [⟨"zzz", "1"⟩],
        "A==1\nB==1\n", "zzz==1\n", [], ["zzz"]⟩) ∧
    ∀ p ∈ (⟨[⟨"B", "1"⟩, ⟨"A", "1"⟩], [⟨"zzz", "1"⟩],
        "A==1\nB==1\n", "zzz==1\n", [], ["zzz"]⟩ : UPLResult).list2,
      p.name ∉ (⟨[⟨"B", "1"⟩, ⟨"A", "1"⟩], [⟨"zzz", "1"⟩],
        "A==1\nB==1\n", "zzz==1\n", [], ["zzz"]⟩ : UPLResult).list1.map
        (fun q => q.name) :=
  ⟨by decide,
    reconcile_precedence catA 5 "B\n" "zzz==1\n" false false none _ (by decide)⟩

/-! ## Error classification: only comparisons raise outside of lookups -/

theorem verCmp_error_cases {v w : String} {e : PyErr} (h : verCmp v w = .error e) :
    e = .typeError ∨ e = .attrError := by
  unfold verCmp at h
  by_cases hvw : (v = "" || w = "") = true
  · rw [if_pos hvw] at h
    cases h
    exact Or.inr rfl
  · rw [if_neg hvw] at h
    cases hc : pyCompare (looseTokens v) (looseTokens w) with
    | none =>
      rw [hc] at h
      cases h
      exact Or.inl rfl
    | some o => rw [hc] at h; cases h

theorem jpGt_error_cases {p q : JenkinsPlugin} {e : PyErr} (h : jpGt p q = .error e) :
    e = .typeError ∨ e = .attrError := by
  unfold jpGt at h
  cases hc : verCmp p.version q.version with
  | error e' =>
    rw [hc] at h
    cases h
    exact verCmp_error_cases hc
  | ok o => rw [hc] at h; cases h

theorem jpLt_error_cases {p q : JenkinsPlugin} {e : PyErr} (h : jpLt p q = .error e) :
    e = .typeError ∨ e = .attrError := by
  unfold jpLt at h
  cases hc : verCmp p.version q.version with
  | error e' =>
    rw [hc] at h
    cases h
    exact verCmp_error_cases hc
  | ok o => rw [hc] at h; cases h

theorem processLines_error_cases {cat : Catalog} {rm : Bool} :
    ∀ {lines : List (List Char)} {e : PyErr},
    processLines cat rm lines = .error e → e = .typeError ∨ e = .attrError := by
  intro lines
  induction lines with
  | nil => intro e h; cases h
  | cons line rest ih =>
    intro e h
    rw [processLines] at h
    cases hp : parseLine line with
    | none =>
      simp only [hp] at h
      exact ih h
    | some p =>
      simp only [hp] at h
      cases hf : find_plugin p.name (catKeys cat) with
      | some a =>
        simp only [hf] at h
        cases hg : jpGt p a with
        | error e' =>
          simp only [hg] at h
          cases h
          exact jpGt_error_cases hg
        | ok b =>
          simp only [hg] at h
          cases hrest : processLines cat rm rest with
          | error e' =>
            simp only [hrest] at h
            cases h
            exact ih hrest
          | ok pr => simp only [hrest] at h; cases h
      | none =>
        simp only [hf] at h
        cases hrest : processLines cat rm rest with
        | error e' =>
          simp only [hrest] at h
          cases h
          exact ih hrest
        | ok pr => simp only [hrest] at h; cases h

theorem process_plugin_list_error_cases {c : String} {cat : Catalog} {rm : Bool}
    {e : PyErr} (h : process_plugin_list c cat rm = .error e) :
    e = .typeError ∨ e = .attrError :=
  processLines_error_cases h

theorem refineIns_error_cases : ∀ {acc : List (String × JenkinsPlugin)}
    {p : JenkinsPlugin} {e : PyErr}, refineIns acc p = .error e →
    e = .typeError ∨ e = .attrError := by
  intro acc
  induction acc with
  | nil => intro p e h; cases h
  | cons kv rest ih =>
    intro p e h
    rw [refineIns] at h
    by_cases hk : kv.1 = p.name
    · rw [if_pos hk] at h
      cases hg : jpLt kv.2 p with
      | error e' =>
        rw [hg] at h
        cases h
        exact jpLt_error_cases hg
      | ok b => rw [hg] at h; cases b <;> cases h
    · rw [if_neg hk] at h
      cases hrec : refineIns rest p with
      | error e' =>
        rw [hrec] at h
        cases h
        exact ih hrec
      | ok out => rw [hrec] at h; cases h

theorem refineGo_error_cases {seen : List String} : ∀ {l : List JenkinsPlugin}
    {acc : List (String × JenkinsPlugin)} {e : PyErr},
    refineGo seen l acc = .error e → e = .typeError ∨ e = .attrError := by
  intro l
  induction l with
  | nil => intro acc e h; cases h
  | cons p ps ih =>
    intro acc e h
    rw [refineGo] at h
    by_cases hs : seen.contains p.name = true
    · rw [if_pos hs] at h
      exact ih h
    · rw [if_neg hs] at h
      cases hins : refineIns acc p with
      | error e' =>
        rw [hins] at h
        cases h
        exact refineIns_error_cases hins
      | ok acc1 =>
        rw [hins] at h
        exact ih h

theorem refine_plugin_list_error_cases {l : List JenkinsPlugin} {seen : List String}
    {e : PyErr} (h : refine_plugin_list l seen = .error e) :
    e = .typeError ∨ e = .attrError := by
  unfold refine_plugin_list at h
  cases hgo : refineGo seen l [] with
  | error e' =>
    rw [hgo] at h
    cases h
    exact refineGo_error_cases hgo
  | ok acc => rw [hgo] at h; cases h

theorem solveAllEntries_error_not_notFound {cat : Catalog} {fuel : Nat} :
    ∀ {l : List JenkinsPlugin} {e : PyErr},
    solveAllEntries cat fuel l = some (.error e) → ∀ nm, e ≠ .notFound nm := by
  intro l
  induction l with
  | nil => intro e h; cases h
  | cons p ps ih =>
    intro e h
    rw [solveAllEntries] at h
    cases hd : depsolve cat fuel p.name with
    | none => simp only [hd] at h; cases h
    | some r =>
      cases r with
      | error e' =>
        cases e' with
        | notFound nm' =>
          simp only [hd] at h
          exact ih h
        | typeError =>
          simp only [hd] at h
          cases h
          intro nm hc
          cases hc
        | attrError =>
          simp only [hd] at h
          cases h
          intro nm hc
          cases hc
      | ok cl =>
        simp only [hd] at h
        cases hrest : solveAllEntries cat fuel ps with
        | none => simp only [hrest] at h; cases h
        | some r2 =>
          cases r2 with
          | error e2 =>
            simp only [hrest] at h
            cases h
            exact ih hrest
          | ok ext => simp only [hrest] at h; cases h

theorem find_plugin_none_iff : ∀ {l : List JenkinsPlugin} {n : String},
    find_plugin n l = none ↔ ∀ p ∈ l, p.name ≠ n := by
  intro l
  induction l with
  | nil => intro n; simp [find_plugin]
  | cons p ps ih =>
    intro n
    rw [find_plugin]
    by_cases hn : p.name = n
    · rw [if_pos hn]
      simp [hn]
    · rw [if_neg hn]
      rw [ih]
      constructor
      · intro h q hq
        rcases List.mem_cons.mp hq with rfl | hq
        · exact hn
        · exact h q hq
      · intro h q hq
        exact h q (by simp [hq])

theorem lookupEntry_none_iff_find {cat : Catalog} {n : String} :
    lookupEntry n cat = none ↔ find_plugin n (catKeys cat) = none := by
  induction cat with
  | nil => simp [lookupEntry, catKeys, find_plugin]
  | cons kv rest ih =>
    rw [lookupEntry]
    show _ ↔ find_plugin n (kv.1 :: catKeys rest) = none
    rw [find_plugin]
    by_cases hn : kv.1.name = n
    · rw [if_pos hn, if_pos hn]
      simp
    · rw [if_neg hn, if_neg hn]
      exact ih

theorem glvScan_no_match {n : String} : ∀ {keys : List JenkinsPlugin}
    (cur : Option JenkinsPlugin), (∀ k ∈ keys, k.name ≠ n) →
    glvScan n keys cur = .ok cur := by
  intro keys
  induction keys with
  | nil => intro cur _; cases cur <;> rfl
  | cons p ps ih =>
    intro cur hk
    have hp : p.name ≠ n := hk p (by simp)
    cases cur with
    | none =>
      rw [glvScan, if_neg hp]
      exact ih none (fun q hq => hk q (by simp [hq]))
    | some c =>
      rw [glvScan, if_neg hp]
      exact ih (some c) (fun q hq => hk q (by simp [hq]))

/-- A name with no exactly matching catalog key makes `depsolve` raise
`PluginNotFound` immediately, at any fuel. -/
theorem depsolve_missing {cat : Catalog} {n : String}
    (h : find_plugin n (catKeys cat) = none) (fuel : Nat) :
    depsolve cat fuel n = some (.error (.notFound n)) := by
  have hnames : ∀ k ∈ catKeys cat, k.name ≠ n := find_plugin_none_iff.mp h
  have hlk : lookupEntry n cat = none := lookupEntry_none_iff_find.mpr h
  unfold depsolve
  cases hd : dictHasName n cat with
  | false =>
    unfold get_latest_version
    rw [hd]
    simp
  | true =>
    unfold get_latest_version
    rw [hd]
    simp only [if_true]
    rw [glvScan_no_match none hnames, hlk]

theorem contains_false_of_not_mem {l : List String} {s : String} (h : s ∉ l) :
    l.contains s = false := by
  cases hc : l.contains s with
  | false => rfl
  | true => exact absurd (List.mem_of_elem_eq_true hc) h

/-- In all-entries mode one list iteration can only fail with a
comparison error, never with `PluginNotFound`. -/
theorem processFile_none_no_notFound {cat : Catalog} {fuel : Nat} {c : String}
    {io dr rm : Bool} {seen : List String} {nm : String} :
    processFile cat fuel c io dr rm none seen ≠ some (.error (.notFound nm)) := by
  intro h
  unfold processFile at h
  cases hp : process_plugin_list c cat rm with
  | error e =>
    rw [hp] at h
    have he : e = .notFound nm := by simpa using h
    rcases process_plugin_list_error_cases hp with h1 | h1 <;> rw [he] at h1 <;> cases h1
  | ok plrm =>
    obtain ⟨pl, removed⟩ := plrm
    simp only [hp] at h
    unfold solveStep at h
    cases hs : solveAllEntries cat fuel pl with
    | none => simp [hs] at h
    | some se =>
      cases se with
      | error e =>
        simp only [hs] at h
        have he : e = .notFound nm := by simpa using h
        exact solveAllEntries_error_not_notFound hs nm he
      | ok ext =>
        simp only [hs] at h
        cases hr : refine_plugin_list (pl ++ ext) seen with
        | error e =>
          simp only [hr] at h
          have he : e = .notFound nm := by simpa using h
          rcases refine_plugin_list_error_cases hr with h1 | h1 <;>
            rw [he] at h1 <;> cases h1
        | ok r => simp [hr] at h

/-- Single-target mode, first (default) list: with the target absent
from the catalog, the iteration either fails with `PluginNotFound` (or a
comparison error), or passes the list through with no entry named after
the target. -/
theorem processFile_single_first {cat : Catalog} {fuel : Nat} {c : String}
    {dr rm : Bool} {t : String}
    (hmiss : find_plugin t (catKeys cat) = none) :
    (∃ e, processFile cat fuel c false dr rm (some t) [] = some (.error e) ∧
      (e = .notFound t ∨ e = .typeError ∨ e = .attrError)) ∨
    (∃ r nc rmv, processFile cat fuel c false dr rm (some t) [] =
        some (.ok (r, nc, rmv)) ∧ ∀ q ∈ r, q.name ≠ t) := by
  cases hp : process_plugin_list c cat rm with
  | error e =>
    left
    refine ⟨e, by simp [processFile, hp], ?_⟩
    rcases process_plugin_list_error_cases hp with h1 | h1
    · exact Or.inr (Or.inl h1)
    · exact Or.inr (Or.inr h1)
  | ok plrm =>
    obtain ⟨pl, removed⟩ := plrm
    cases hf : find_plugin t pl with
    | some q =>
      left
      refine ⟨.notFound t, ?_, Or.inl rfl⟩
      simp [processFile, solveStep, hp, hf, depsolve_missing hmiss fuel]
    | none =>
      cases hr : refine_plugin_list pl [] with
      | error e =>
        left
        refine ⟨e, ?_, ?_⟩
        · simp [processFile, solveStep, hp, hf, hr]
        · rcases refine_plugin_list_error_cases hr with h1 | h1
          · exact Or.inr (Or.inl h1)
          · exact Or.inr (Or.inr h1)
      | ok r =>
        right
        refine ⟨r, if dr then c else write_plugin_list r, removed, ?_, ?_⟩
        · simp [processFile, solveStep, hp, hf, hr]
        · intro q hq
          exact find_plugin_none_iff.mp hf q ((refine_plugin_list_spec hr).1 q hq).1

/-- Single-target mode, second (optional) list: with the target absent
from the catalog and not yet seen, the iteration fails. -/
theorem processFile_single_second {cat : Catalog} {fuel : Nat} {c : String}
    {dr rm : Bool} {t : String} {seen : List String}
    (hmiss : find_plugin t (catKeys cat) = none)
    (hseen : seen.contains t = false) :
    ∃ e, processFile cat fuel c true dr rm (some t) seen = some (.error e) ∧
      (e = .notFound t ∨ e = .typeError ∨ e = .attrError) := by
  cases hp : process_plugin_list c cat rm with
  | error e =>
    refine ⟨e, by simp [processFile, hp], ?_⟩
    rcases process_plugin_list_error_cases hp with h1 | h1
    · exact Or.inr (Or.inl h1)
    · exact Or.inr (Or.inr h1)
  | ok plrm =>
    obtain ⟨pl, removed⟩ := plrm
    refine ⟨.notFound t, ?_, Or.inl rfl⟩
    have hnot : t ∉ seen := contains_false_not_mem hseen
    simp [processFile, solveStep, hp, hseen, hnot, depsolve_missing hmiss fuel]

theorem processFile_all_retains {cat : Catalog} {fuel : Nat} {c : String}
    {io dr : Bool} {seen : List String} {r : List JenkinsPlugin} {nc : String}
    {rmv : List String} {pl : List JenkinsPlugin} {rm2 : List String}
    (h : processFile cat fuel c io dr false none seen = some (.ok (r, nc, rmv)))
    (hp : process_plugin_list c cat false = .ok (pl, rm2)) :
    ∀ p ∈ pl, seen.contains p.name = false → ∃ q ∈ r, q.name = p.name := by
  unfold processFile at h
  simp only [hp] at h
  unfold solveStep at h
  cases hs : solveAllEntries cat fuel pl with
  | none => simp [hs] at h
  | some se =>
    cases se with
    | error e => simp [hs] at h
    | ok ext =>
      simp only [hs] at h
      cases hr : refine_plugin_list (pl ++ ext) seen with
      | error e => simp [hr] at h
      | ok refined =>
        simp only [hr] at h
        have hre : refined = r := by
          simp at h
          exact h.1
        subst hre
        intro p hpm hpseen
        exact (refine_plugin_list_spec hr).2 p (List.mem_append_left ext hpm) hpseen

/-- C6: when a resolved name is absent from the catalog, all-entries
mode recovers per entry — `update_plugin_lists` never surfaces
`PluginNotFound`, and a loaded catalog-missing entry still appears under
its own name in the written default list — while in single-target mode
the same failure propagates out of the whole operation (the only other
failures being the comparison errors a malformed version can raise
before the target is resolved). -/
theorem reconcile_missing_semantics :
    (∀ (cat : Catalog) (fuel : Nat) (c1 c2 : String) (dryRun removeMissing : Bool)
      (nm : String),
      update_plugin_lists cat fuel c1 c2 dryRun removeMissing none ≠
        some (.error (.notFound nm))) ∧
    (∀ (cat : Catalog) (fuel : Nat) (c1 c2 : String) (dryRun : Bool)
      (res : UPLResult) (pl : List JenkinsPlugin) (rmv : List String),
      update_plugin_lists cat fuel c1 c2 dryRun false none = some (.ok res) →
      process_plugin_list c1 cat false = .ok (pl, rmv) →
      ∀ p ∈ pl, find_plugin p.name (catKeys cat) = none →
        ∃ q ∈ res.list1, q.name = p.name) ∧
    (∀ (cat : Catalog) (fuel : Nat) (c1 c2 : String) (dryRun removeMissing : Bool)
      (t : String), find_plugin t (catKeys cat) = none →
      ∃ e, update_plugin_lists cat fuel c1 c2 dryRun removeMissing (some t) =
        some (.error e) ∧ (e = .notFound t ∨ e = .typeError ∨ e = .attrError)) := by
  refine ⟨?_, ?_, ?_⟩
  · intro cat fuel c1 c2 dryRun removeMissing nm h
    unfold update_plugin_lists at h
    cases h1 : processFile cat fuel c1 false dryRun removeMissing none [] with
    | none => rw [h1] at h; cases h
    | some r1e =>
      cases r1e with
      | error e =>
        simp only [h1] at h
        have he : e = .notFound nm := by simpa using h
        rw [he] at h1
        exact processFile_none_no_notFound h1
      | ok t1 =>
        obtain ⟨r1, nc1, rm1⟩ := t1
        simp only [h1] at h
        cases h2 : processFile cat fuel c2 true dryRun removeMissing none
            (r1.map (fun p => p.name)) with
        | none => simp [h2] at h
        | some r2e =>
          cases r2e with
          | error e =>
            simp only [h2] at h
            have he : e = .notFound nm := by simpa using h
            rw [he] at h2
            exact processFile_none_no_notFound h2
          | ok t2 =>
            obtain ⟨r2, nc2, rm2⟩ := t2
            simp [h2] at h
  · intro cat fuel c1 c2 dryRun res pl rmv h hp p hpm hpmiss
    unfold update_plugin_lists at h
    cases h1 : processFile cat fuel c1 false dryRun false none [] with
    | none => rw [h1] at h; cases h
    | some r1e =>
      cases r1e with
      | error e => simp [h1] at h
      | ok t1 =>
        obtain ⟨r1, nc1, rm1⟩ := t1
        simp only [h1] at h
        cases h2 : processFile cat fuel c2 true dryRun false none
            (r1.map (fun p => p.name)) with
        | none => simp [h2] at h
        | some r2e =>
          cases r2e with
          | error e => simp [h2] at h
          | ok t2 =>
            obtain ⟨r2, nc2, rm2⟩ := t2
            simp only [h2] at h
            have hres : res = ⟨r1, r2, nc1, nc2, rm1, rm2⟩ := by
              simpa using h.symm
            subst hres
            exact processFile_all_retains h1 hp p hpm rfl
  · intro cat fuel c1 c2 dryRun removeMissing t hmiss
    rcases @processFile_single_first cat fuel c1 dryRun removeMissing t hmiss with
      ⟨e, h1, hset⟩ | ⟨r1, nc1, rm1, h1, hnames⟩
    · exact ⟨e, by simp [update_plugin_lists, h1], hset⟩
    · have hseen : (r1.map (fun p => p.name)).contains t = false := by
        apply contains_false_of_not_mem
        intro hc
        obtain ⟨q, hq, hqn⟩ := List.mem_map.mp hc
        exact hnames q hq hqn
      obtain ⟨e, h2, hset⟩ := @processFile_single_second cat fuel c2 dryRun
        removeMissing t (r1.map (fun p => p.name)) hmiss hseen
      exact ⟨e, by simp [update_plugin_lists, h1, h2], hset⟩

/-- C6 witness: the recovery half applied to a list holding the
catalog-missing entry `zzz` (which survives the refresh), and the fatal
half applied to a single-target update of the same missing name. -/
theorem reconcile_missing_semantics_witness :
    (∃ q ∈ ([⟨"zzz", "1"⟩, ⟨"B", "1"⟩, ⟨"A", "1"⟩] : List JenkinsPlugin),
      q.name = "zzz") ∧
    (∃ e, update_plugin_lists catA 5 "B\n" "" false false (some "zzz") =
      some (.error e) ∧
      (e = .notFound "zzz" ∨ e = .typeError ∨ e = .attrError)) := by
  constructor
  · obtain ⟨q, hq, hqn⟩ := reconcile_missing_semantics.2.1 catA 5 "zzz==1\nB\n" ""
      false ⟨[⟨"zzz", "1"⟩, ⟨"B", "1"⟩, ⟨"A", "1"⟩], [],
        "A==1\nB==1\nzzz==1\n", "", ["zzz"], []⟩
      [⟨"zzz", "1"⟩, ⟨"B", "0"⟩] ["zzz"] (by decide) (by decide)
      ⟨"zzz", "1"⟩ (by decide) (by decide)
    exact ⟨q, hq, hqn⟩
  · exact reconcile_missing_semantics.2.2 catA 5 "B\n" "" false false "zzz" (by decide)

/-- C2 witness: the closure theorem applied to the concrete scenario
resolution of `B`. -/
theorem depsolve_closure_unique_max_witness :
    depsolve catA 5 "B" = some (.ok [⟨"B", "1"⟩, ⟨"A", "1"⟩]) ∧
    (([⟨"B", "1"⟩, ⟨"A", "1"⟩] : List JenkinsPlugin).map
      (fun p => lowerName p.name)).Nodup ∧
    (∀ p ∈ ([⟨"B", "1"⟩, ⟨"A", "1"⟩] : List JenkinsPlugin), Reach catA "B" p.name) ∧
    (∀ n, Reach catA "B" n → ∃ p ∈ ([⟨"B", "1"⟩, ⟨"A", "1"⟩] : List JenkinsPlugin),
      lowerName p.name = lowerName n) ∧
    (∀ p ∈ ([⟨"B", "1"⟩, ⟨"A", "1"⟩] : List JenkinsPlugin),
      EncVer catA "B" (lowerName p.name) p.version ∧
      ∀ v, EncVer catA "B" (lowerName p.name) v → verCmp v p.version ≠ .ok .gt) := by
  have h : depsolve catA 5 "B" = some (.ok [⟨"B", "1"⟩, ⟨"A", "1"⟩]) := by decide
  obtain ⟨h1, h2, h3, h4⟩ := depsolve_closure_unique_max catA 5 "B" _ h
  exact ⟨h, h1, h2, h3, h4⟩
